import Mathlib

/-!
Shallow embedding of the pairwise cascade-hashing matching pipeline of
`src/openMVG/matching_image_collection/Cascade_Hashing_Matcher_Regions.cpp`.

Image identifiers (`IndexT`) are `Nat`; descriptor scalars and squared
distances are `ℚ` (the source uses `float` / integer accumulators depending on
the scalar type; the claims checked here are structural and order-theoretic,
not about floating-point rounding).  The external collaborators that are not
part of the provided source (the `CascadeHasher` engine, the matching filters,
the deduplicators and the progress bar) are modelled from the specification's
interface descriptions; each such definition is marked `Modelled from the
spec:` in its doc comment.  Everything else is a direct translation of
`impl::Match` and `Cascade_Hashing_Matcher_Regions::Match`.
-/

/-- One descriptor row: a vector of rational scalars. -/
abbrev Desc := List ℚ

/-- Modelled from the spec: `IndMatch` (openMVG/matching/indMatch.hpp is not in
the provided sources).  A candidate correspondence: `i_` is the first stored
index and `j_` the second, exactly the two fields read by the call site
`pvec_indices[index * 2].j_` / `.i_`. -/
structure IndMatch where
  i_ : Nat
  j_ : Nat
deriving DecidableEq, Inhabited

/-- A Region Set (per image): descriptor scalar-type tag, declared descriptor
dimension (`DescriptorLength`), the descriptor rows (`DescriptorRawData`
viewed as a `RegionCount × dimension` row-major matrix) and the 2D feature
positions (`GetRegionsPositions`). -/
structure RegionSet where
  type_id : String
  descriptorLength : Nat
  descriptors : List Desc
  positions : List (ℚ × ℚ)
deriving DecidableEq

/-- The Regions provider: reports binary-encoding, a provider-level scalar
type tag (`Type_id`), and per-image Region Sets (`get`). -/
structure Regions_Provider where
  isBinary : Bool
  type_id : String
  get : Nat → RegionSet

/-- Modelled from the spec: a `HashedDescriptions` index artifact
(openMVG/matching/cascade_hasher.hpp is not in the provided sources).  The
spec treats it as an opaque value produced by
`buildIndex(matrix, zeroMeanVector)`; since `CreateHashedDescriptions` is a
deterministic function of exactly those two inputs, the artifact is modelled
as the record of them. -/
structure HashedDescriptions where
  mat : List Desc
  zeroMean : Desc
deriving DecidableEq

/-- Modelled from the spec: the external hashing engine interface
(`cascade_hasher.hpp` is not in the provided sources).
`getZeroMeanDescriptor` is the engine's reduction capability
(`reduceToZeroMean`); `matchHashedDescriptions` is the k-NN query capability
(`queryKNN(queryHashed, queryMatrix, baseHashed, baseMatrix, k=2)`), returning
the flat per-query candidate index list and the parallel distance list.  The
engine's internal hash parameters (`Init`) are absorbed into the functions,
which is faithful for a deterministic engine.  Theorems that depend on the
k-NN output assume the spec's contract on it as an explicit hypothesis. -/
structure CascadeHasher where
  getZeroMeanDescriptor : List Desc → Desc
  matchHashedDescriptions : HashedDescriptions → List Desc → HashedDescriptions → List Desc → List IndMatch × List ℚ

/-- Modelled from the spec: `Square` (openMVG numeric helper), used at the
call site `Square(fDistRatio)`. -/
def Square (x : ℚ) : ℚ := x * x

/-- Modelled from the spec: `matching::NNdistanceRatio`
(openMVG/matching/matching_filters.hpp is not in the provided sources).  The
distances come in consecutive groups of `NN = 2` per query descriptor; group
`g` is retained iff its first (nearest) distance is strictly below
`ratio` times its second distance. -/
def NNdistanceRatio (dists : List ℚ) (ratio : ℚ) : List Nat :=
  (List.range (dists.length / 2)).filter fun g =>
    decide (dists.getD (2 * g) 0 < ratio * dists.getD (2 * g + 1) 0)

/-- Modelled from the spec: `IndMatch::getDeduplicated` removes exact
index-pair duplicates (here keeping the first occurrence of each pair). -/
def getDeduplicated (ms : List (Nat × Nat)) : List (Nat × Nat) :=
  ms.foldl (fun acc m => if m ∈ acc then acc else acc ++ [m]) []

/-- The coordinate key of a match under position lists of the two images:
the (x, y) positions the two endpoints refer to. -/
def coordKey (posI posJ : List (ℚ × ℚ)) (m : Nat × Nat) : (ℚ × ℚ) × (ℚ × ℚ) :=
  (posI.getD m.1 (0, 0), posJ.getD m.2 (0, 0))

/-- Modelled from the spec: `IndMatchDecorator<float>::getDeduplicated`
(openMVG/matching/indMatchDecoratorXY.hpp is not in the provided sources).
It removes matches whose corresponding descriptor positions coincide with an
already kept match's positions in both images (keeping the first
occurrence per coordinate pair). -/
def dedupByCoordinates (posI posJ : List (ℚ × ℚ)) (ms : List (Nat × Nat)) : List (Nat × Nat) :=
  ms.foldl
    (fun acc m =>
      if acc.any (fun m2 => coordKey posI posJ m2 = coordKey posI posJ m) then acc
      else acc ++ [m])
    []

/-- The output Putative Match Collection: an insertion-ordered association
list from an image pair to its deduplicated match list, standing for the
`std::map<Pair, IndMatches>` the source fills. -/
abbrev PMap := List ((Nat × Nat) × List (Nat × Nat))

/-- Key lookup in a `PMap` (the map read access of `std::map`). -/
def pmLookup (k : Nat × Nat) : PMap → Option (List (Nat × Nat))
  | [] => none
  | (k2, v) :: rest => if k2 = k then some v else pmLookup k rest

/-- Key insertion in a `PMap` with `std::map::insert` semantics: if the key is
already present the map is unchanged, otherwise the binding is added. -/
def pmInsert (k : Nat × Nat) (v : List (Nat × Nat)) (m : PMap) : PMap :=
  if (pmLookup k m).isSome then m else m ++ [(k, v)]

/-- The set of image identifiers referenced by any requested pair
(`used_index` in the source, an `std::set<IndexT>` filled by inserting
`pair.first` then `pair.second` for each pair). -/
def used_index (pairs : List (Nat × Nat)) : Finset Nat :=
  pairs.foldl (fun s p => insert p.2 (insert p.1 s)) ∅

/-- The `used_index` set in its iteration order: sorted ascending, as
`std::set<IndexT>` iterates. -/
def usedIndexList (pairs : List (Nat × Nat)) : List Nat :=
  (used_index pairs).sort (· ≤ ·)

/-- The keys of the `map_Pairs` grouping (an `std::map<IndexT, vector>`
keyed by each pair's first component, iterated in ascending key order). -/
def map_Pairs_keys (pairs : List (Nat × Nat)) : List Nat :=
  (pairs.foldl (fun s p => insert p.1 s) (∅ : Finset Nat)).sort (· ≤ ·)

/-- The second components grouped under first component `I`, in input
iteration order (the `push_back` order of the source's grouping loop). -/
def secondsOf (pairs : List (Nat × Nat)) (I : Nat) : List Nat :=
  (pairs.filter fun p => p.1 == I).map Prod.snd

/-- The source's `map_Pairs` grouping: each distinct first index, in
ascending order, with the ordered list of second indexes to compare. -/
def map_Pairs (pairs : List (Nat × Nat)) : List (Nat × List Nat) :=
  (map_Pairs_keys pairs).map fun I => (I, secondsOf pairs I)

/-- Width of the `matForZeroMean` matrix: the descriptor length of the first
used image (the source resizes the matrix at loop index `i == 0` with that
image's `DescriptorLength`). -/
def zeroMeanWidth (provider : Regions_Provider) (used : List Nat) : Nat :=
  match used with
  | [] => 0
  | I :: _ => (provider.get I).descriptorLength

/-- The `matForZeroMean` matrix of the source's zero-mean block, row by row:
for loop index `i`, the image is `used[i]` (the `std::advance` walk); its row
is the engine's zero-mean reduction of that image's descriptor matrix when
the image has at least one region, and stays the all-zero fill otherwise. -/
def matForZeroMean (ch : CascadeHasher) (provider : Regions_Provider) (used : List Nat) : List Desc :=
  (List.range used.length).map fun i =>
    let regionsI := provider.get (used.getD i 0)
    if 0 < regionsI.descriptors.length then ch.getZeroMeanDescriptor regionsI.descriptors
    else List.replicate (zeroMeanWidth provider used) 0

/-- The globally shared Zero-Mean Descriptor: the engine's reduction applied
once more to the stacked per-image summary matrix. -/
def zero_mean_descriptor (ch : CascadeHasher) (provider : Regions_Provider)
    (pairs : List (Nat × Nat)) : Desc :=
  ch.getZeroMeanDescriptor (matForZeroMean ch provider (usedIndexList pairs))

/-- The `hashed_base_` mapping: for each image, the hashed description built
from its descriptor matrix and the shared zero-mean descriptor
(`cascade_hasher.CreateHashedDescriptions(mat_I, zero_mean_descriptor)`). -/
def hashed_base (ch : CascadeHasher) (provider : Regions_Provider)
    (pairs : List (Nat × Nat)) (I : Nat) : HashedDescriptions :=
  { mat := (provider.get I).descriptors
    zeroMean := zero_mean_descriptor ch provider pairs }

/-- The per-pair match list the source computes for pair (I, J): k-NN query
with J as query and I as base, ratio filtering with `Square(fDistRatio)`,
index-order swap on emission (`pvec_indices[index * 2].j_` first, `.i_`
second), exact-index deduplication, then coordinate deduplication. -/
def pairMatches (ch : CascadeHasher) (hb : Nat → HashedDescriptions) (fDistRatio : ℚ)
    (I J : Nat) (regionsI regionsJ : RegionSet) : List (Nat × Nat) :=
  let qr := ch.matchHashedDescriptions (hb J) regionsJ.descriptors (hb I) regionsI.descriptors
  let nn_ratio_indexes := NNdistanceRatio qr.2 (Square fDistRatio)
  let matches0 := nn_ratio_indexes.map fun idx =>
    ((qr.1.getD (idx * 2) default).j_, (qr.1.getD (idx * 2) default).i_)
  dedupByCoordinates regionsI.positions regionsJ.positions (getDeduplicated matches0)

/-- The mutable state threaded through the matching loops: the output
collection, the progress counter, and the number of cancellation-flag
consultations performed so far (`tick`, indexing the cancellation oracle). -/
structure MatchState where
  out : PMap
  progress : Nat
  tick : Nat
deriving DecidableEq

/-- One inner-loop iteration of the source's matching loop, for second image
`J` of the group of first image `I`: consult the cancellation flag (skip with
no progress if set), skip with one progress unit on scalar-type mismatch,
otherwise compute the pair's match list and insert it under key (I, J) when
non-empty, counting one progress unit. -/
def processPair (ch : CascadeHasher) (provider : Regions_Provider)
    (hb : Nat → HashedDescriptions) (fDistRatio : ℚ) (oracle : Nat → Bool)
    (I : Nat) (regionsI : RegionSet) (s : MatchState) (J : Nat) : MatchState :=
  if oracle s.tick then { s with tick := s.tick + 1 }
  else
    let regionsJ := provider.get J
    if regionsI.type_id ≠ regionsJ.type_id then
      { out := s.out, progress := s.progress + 1, tick := s.tick + 1 }
    else
      let ms := pairMatches ch hb fDistRatio I J regionsI regionsJ
      { out := if ms = [] then s.out else pmInsert (I, J) ms s.out
        progress := s.progress + 1
        tick := s.tick + 1 }

/-- The source's outer matching loop over first-image groups, generalized by a
schedule `sched` giving the completion order of the inner parallel-for (the
source's `omp parallel for` over `indexToCompare`; the sequential source order
is `sched = fun _ js => js`).  Per group: consult the cancellation flag and
break when set; when the first image has no region, count the whole group as
progress and continue; otherwise run every inner iteration. -/
def runGroupsSched (ch : CascadeHasher) (provider : Regions_Provider)
    (hb : Nat → HashedDescriptions) (fDistRatio : ℚ) (oracle : Nat → Bool)
    (sched : Nat → List Nat → List Nat) :
    List (Nat × List Nat) → MatchState → MatchState
  | [], s => s
  | (I, indexToCompare) :: rest, s =>
    if oracle s.tick then s
    else
      let s1 : MatchState := { s with tick := s.tick + 1 }
      let regionsI := provider.get I
      if regionsI.descriptors.length = 0 then
        runGroupsSched ch provider hb fDistRatio oracle sched rest
          { s1 with progress := s1.progress + indexToCompare.length }
      else
        runGroupsSched ch provider hb fDistRatio oracle sched rest
          ((sched I indexToCompare).foldl
            (processPair ch provider hb fDistRatio oracle I regionsI) s1)

/-- The outer matching loop in the source's own (sequential) order. -/
def runGroups (ch : CascadeHasher) (provider : Regions_Provider)
    (hb : Nat → HashedDescriptions) (fDistRatio : ℚ) (oracle : Nat → Bool) :
    List (Nat × List Nat) → MatchState → MatchState :=
  runGroupsSched ch provider hb fDistRatio oracle fun _ js => js

/-- The whole of `impl::Match`: restart progress, group the pairs, compute
the zero-mean descriptor, build the hashed indexes, and run the matching
loops starting from the caller's output map. -/
def impl.Match (ch : CascadeHasher) (provider : Regions_Provider)
    (pairs : List (Nat × Nat)) (fDistRatio : ℚ) (initMap : PMap)
    (oracle : Nat → Bool) : MatchState :=
  runGroups ch provider (hashed_base ch provider pairs) fDistRatio oracle
    (map_Pairs pairs) { out := initMap, progress := 0, tick := 0 }

/-- `impl::Match` under an arbitrary inner-loop completion schedule. -/
def impl.MatchSched (ch : CascadeHasher) (provider : Regions_Provider)
    (pairs : List (Nat × Nat)) (fDistRatio : ℚ) (initMap : PMap)
    (oracle : Nat → Bool) (sched : Nat → List Nat → List Nat) : MatchState :=
  runGroupsSched ch provider (hashed_base ch provider pairs) fDistRatio oracle sched
    (map_Pairs pairs) { out := initMap, progress := 0, tick := 0 }

/-- The effect of one (uncancelled) inner iteration on the output collection
alone: insert the pair's match list under (I, J) when the scalar types agree
and the list is non-empty, otherwise leave the collection unchanged. -/
def pairAct (ch : CascadeHasher) (provider : Regions_Provider)
    (hb : Nat → HashedDescriptions) (fDistRatio : ℚ) (I : Nat) (regionsI : RegionSet)
    (m : PMap) (J : Nat) : PMap :=
  if regionsI.type_id = (provider.get J).type_id ∧
      pairMatches ch hb fDistRatio I J regionsI (provider.get J) ≠ [] then
    pmInsert (I, J) (pairMatches ch hb fDistRatio I J regionsI (provider.get J)) m
  else m

/-- Two output collections are observationally equal when every key looks up
to the same value. -/
def outEquiv (m1 m2 : PMap) : Prop := ∀ k, pmLookup k m1 = pmLookup k m2

/-- Two matching states are observationally equal: same lookups, same
progress count, same number of cancellation consultations. -/
def stEquiv (s1 s2 : MatchState) : Prop :=
  outEquiv s1.out s2.out ∧ s1.progress = s2.progress ∧ s1.tick = s2.tick

/-- Result of the public entry point: the output collection, the progress
count, and whether the unknown-scalar-type error was reported. -/
structure MatchResult where
  out : PMap
  progress : Nat
  errorReported : Bool
deriving DecidableEq

/-- The constantly-unset cancellation flag (a run with no cancellation). -/
def noCancel : Nat → Bool := fun _ => false

/-- The public entry point `Cascade_Hashing_Matcher_Regions::Match`: return
empty-handed on a missing provider or a binary-encoded provider, dispatch to
`impl::Match` for the two supported scalar types (the template parameter only
fixes the matrix element type, which the embedding does not distinguish), and
report an error for any other scalar type. -/
def Cascade_Hashing_Matcher_Regions.Match (ch : CascadeHasher)
    (regions_provider : Option Regions_Provider) (pairs : List (Nat × Nat))
    (f_dist_ratio_ : ℚ) (initMap : PMap) (oracle : Nat → Bool) : MatchResult :=
  match regions_provider with
  | none => { out := initMap, progress := 0, errorReported := false }
  | some provider =>
    if provider.isBinary then { out := initMap, progress := 0, errorReported := false }
    else if provider.type_id = "unsigned char" ∨ provider.type_id = "float" then
      let s := impl.Match ch provider pairs f_dist_ratio_ initMap oracle
      { out := s.out, progress := s.progress, errorReported := false }
    else { out := initMap, progress := 0, errorReported := true }

/-- Concrete fixture: a region set with two descriptors of dimension 2. -/
def wRegTwo : RegionSet :=
  { type_id := "unsigned char", descriptorLength := 2
    descriptors := [[0, 0], [3, 4]], positions := [(0, 0), (3, 4)] }

/-- Concrete fixture: a region set with one descriptor of dimension 2. -/
def wRegOne : RegionSet :=
  { type_id := "unsigned char", descriptorLength := 2
    descriptors := [[1, 0]], positions := [(1, 0)] }

/-- Concrete fixture: a region set with no descriptors. -/
def wRegEmpty : RegionSet :=
  { type_id := "unsigned char", descriptorLength := 2
    descriptors := [], positions := [] }

/-- Concrete fixture: a float-typed region set with one descriptor. -/
def wRegFloat : RegionSet :=
  { type_id := "float", descriptorLength := 2
    descriptors := [[2, 2]], positions := [(2, 2)] }

/-- Concrete fixture: a provider with image 0 two descriptors, image 1 one
descriptor, all other images empty. -/
def wProv : Regions_Provider :=
  { isBinary := false, type_id := "unsigned char"
    get := fun i => if i = 0 then wRegTwo else if i = 1 then wRegOne else wRegEmpty }

/-- Concrete fixture: a provider whose images 0 and 1 report different
descriptor scalar types. -/
def wProvMis : Regions_Provider :=
  { isBinary := false, type_id := "unsigned char"
    get := fun i => if i = 0 then wRegTwo else wRegFloat }

/-- Concrete fixture: a binary-encoded provider. -/
def wProvBin : Regions_Provider :=
  { isBinary := true, type_id := "unsigned char", get := fun _ => wRegEmpty }

/-- Concrete fixture: a provider with an unsupported scalar type. -/
def wProvUnknown : Regions_Provider :=
  { isBinary := false, type_id := "double", get := fun _ => wRegEmpty }

/-- Concrete fixture: a trivial hashed-description table. -/
def wHB : Nat → HashedDescriptions := fun _ => { mat := [], zeroMean := [] }

/-- Concrete fixture: an engine that returns no candidates at all. -/
def wHasher0 : CascadeHasher :=
  { getZeroMeanDescriptor := fun _ => []
    matchHashedDescriptions := fun _ _ _ _ => ([], []) }

/-- Concrete fixture: an engine answering one query descriptor with base
candidates 0 (distance 1) and 1 (distance 4). -/
def wHasherC : CascadeHasher :=
  { getZeroMeanDescriptor := fun _ => [0, 0]
    matchHashedDescriptions := fun _ _ _ _ => ([⟨0, 0⟩, ⟨0, 1⟩], [1, 4]) }

/-- Lookup distributes over append when the key is absent from the prefix. -/
theorem pmLookup_append_of_none {k : Nat × Nat} {m1 : PMap} (m2 : PMap)
    (h : pmLookup k m1 = none) : pmLookup k (m1 ++ m2) = pmLookup k m2 := by
  induction m1 with
  | nil => rfl
  | cons e rest ih =>
    obtain ⟨k2, v⟩ := e
    by_cases hk : k2 = k
    · simp [pmLookup, hk] at h
    · simp only [pmLookup, hk, if_neg hk, List.cons_append] at h ⊢
      exact ih h

/-- Lookup over append keeps any binding found in the prefix. -/
theorem pmLookup_append_of_some {k : Nat × Nat} {m1 : PMap} {v : List (Nat × Nat)} (m2 : PMap)
    (h : pmLookup k m1 = some v) : pmLookup k (m1 ++ m2) = some v := by
  induction m1 with
  | nil => simp [pmLookup] at h
  | cons e rest ih =>
    obtain ⟨k2, w⟩ := e
    by_cases hk : k2 = k
    · simp only [pmLookup, if_pos hk, List.cons_append] at h ⊢
      exact h
    · simp only [pmLookup, if_neg hk, List.cons_append] at h ⊢
      exact ih h

/-- Full characterization of a lookup after an `std::map::insert`. -/
theorem pmLookup_pmInsert (k2 k : Nat × Nat) (v : List (Nat × Nat)) (m : PMap) :
    pmLookup k2 (pmInsert k v m) =
      if k2 = k ∧ pmLookup k2 m = none then some v else pmLookup k2 m := by
  unfold pmInsert
  rcases hm : pmLookup k m with _ | w
  · simp only [hm, Option.isSome_none, Bool.false_eq_true, if_false]
    by_cases hk : k2 = k
    · subst hk
      rw [pmLookup_append_of_none _ hm]
      simp [pmLookup, hm]
    · rcases h2 : pmLookup k2 m with _ | w2
      · rw [pmLookup_append_of_none _ h2]
        simp [pmLookup, hk, Ne.symm hk, h2]
      · rw [pmLookup_append_of_some _ h2]
        simp [hk]
  · simp only [hm, Option.isSome_some, if_true]
    by_cases hk : k2 = k
    · subst hk; simp [hm]
    · simp [hk]

/-- Insertion never changes the binding of a different key. -/
theorem pmLookup_pmInsert_ne {k2 k : Nat × Nat} (hk : k2 ≠ k) (v : List (Nat × Nat)) (m : PMap) :
    pmLookup k2 (pmInsert k v m) = pmLookup k2 m := by
  rw [pmLookup_pmInsert]; simp [hk]

/-- Insertion never overwrites an existing binding. -/
theorem pmInsert_preserves_some {k2 : Nat × Nat} {m : PMap} {w : List (Nat × Nat)}
    (k : Nat × Nat) (v : List (Nat × Nat)) (h : pmLookup k2 m = some w) :
    pmLookup k2 (pmInsert k v m) = some w := by
  rw [pmLookup_pmInsert, h]; simp

/-- A key looks up to nothing exactly when it is not among the stored keys. -/
theorem pmLookup_eq_none_iff {k : Nat × Nat} {m : PMap} :
    pmLookup k m = none ↔ k ∉ m.map Prod.fst := by
  induction m with
  | nil => simp [pmLookup]
  | cons e rest ih =>
    obtain ⟨k2, v⟩ := e
    by_cases hk : k2 = k
    · subst hk; simp [pmLookup]
    · simp [pmLookup, hk, Ne.symm hk, ih]

/-- Insertion keeps the stored keys duplicate-free. -/
theorem pmInsert_keys_nodup {m : PMap} (k : Nat × Nat) (v : List (Nat × Nat))
    (h : (m.map Prod.fst).Nodup) : ((pmInsert k v m).map Prod.fst).Nodup := by
  unfold pmInsert
  rcases hm : pmLookup k m with _ | w
  · simp only [hm, Option.isSome_none, Bool.false_eq_true, if_false, List.map_append]
    rw [List.nodup_append]
    refine ⟨h, List.nodup_singleton _, ?_⟩
    intro x hx hx2
    simp only [List.map_cons, List.map_nil, List.mem_singleton] at hx2
    subst hx2
    exact (pmLookup_eq_none_iff.mp hm) hx
  · simp [hm, h]

/-- Elements surviving the exact-index deduplication all come from the input
list (auxiliary form, generalized over the accumulator). -/
theorem getDeduplicated_aux_sub {x : Nat × Nat} :
    ∀ (l acc : List (Nat × Nat)),
      x ∈ l.foldl (fun acc m => if m ∈ acc then acc else acc ++ [m]) acc →
      x ∈ acc ∨ x ∈ l := by
  intro l
  induction l with
  | nil => intro acc h; exact Or.inl h
  | cons a tl ih =>
    intro acc h
    rcases ih _ h with h2 | h2
    · by_cases ha : a ∈ acc
      · simp only [if_pos ha] at h2
        exact Or.inl h2
      · simp only [if_neg ha, List.mem_append, List.mem_singleton] at h2
        rcases h2 with h3 | h3
        · exact Or.inl h3
        · exact Or.inr (by simp [h3])
    · exact Or.inr (List.mem_cons_of_mem _ h2)

/-- Elements surviving the exact-index deduplication all come from the input. -/
theorem getDeduplicated_sub {x : Nat × Nat} {l : List (Nat × Nat)}
    (h : x ∈ getDeduplicated l) : x ∈ l := by
  rcases getDeduplicated_aux_sub l [] h with h2 | h2
  · simp at h2
  · exact h2

/-- The exact-index deduplication produces a duplicate-free list (auxiliary
form, generalized over the accumulator). -/
theorem getDeduplicated_aux_nodup :
    ∀ (l acc : List (Nat × Nat)), acc.Nodup →
      (l.foldl (fun acc m => if m ∈ acc then acc else acc ++ [m]) acc).Nodup := by
  intro l
  induction l with
  | nil => intro acc h; exact h
  | cons a tl ih =>
    intro acc h
    by_cases ha : a ∈ acc
    · simpa [ha] using ih acc h
    · refine ih _ ?_
      simp only [if_neg ha]
      rw [List.nodup_append]
      exact ⟨h, List.nodup_singleton _, by
        intro x hx hx2
        simp only [List.mem_singleton] at hx2
        subst hx2
        exact ha hx⟩

/-- The exact-index deduplication produces a duplicate-free list. -/
theorem getDeduplicated_nodup (l : List (Nat × Nat)) : (getDeduplicated l).Nodup :=
  getDeduplicated_aux_nodup l [] (List.nodup_nil)

/-- Elements surviving the coordinate deduplication all come from the input
list (auxiliary form). -/
theorem dedupByCoordinates_aux_sub {posI posJ : List (ℚ × ℚ)} {x : Nat × Nat} :
    ∀ (l acc : List (Nat × Nat)),
      x ∈ l.foldl (fun acc m =>
        if acc.any (fun m2 => coordKey posI posJ m2 = coordKey posI posJ m) then acc
        else acc ++ [m]) acc →
      x ∈ acc ∨ x ∈ l := by
  intro l
  induction l with
  | nil => intro acc h; exact Or.inl h
  | cons a tl ih =>
    intro acc h
    rcases ih _ h with h2 | h2
    · by_cases ha : acc.any (fun m2 => coordKey posI posJ m2 = coordKey posI posJ a)
      · simp only [if_pos ha] at h2
        exact Or.inl h2
      · simp only [if_neg ha, List.mem_append, List.mem_singleton] at h2
        rcases h2 with h3 | h3
        · exact Or.inl h3
        · exact Or.inr (by simp [h3])
    · exact Or.inr (List.mem_cons_of_mem _ h2)

/-- Elements surviving the coordinate deduplication all come from the input. -/
theorem dedupByCoordinates_sub {posI posJ : List (ℚ × ℚ)} {x : Nat × Nat}
    {l : List (Nat × Nat)} (h : x ∈ dedupByCoordinates posI posJ l) : x ∈ l := by
  rcases dedupByCoordinates_aux_sub l [] h with h2 | h2
  · simp at h2
  · exact h2

/-- The coordinate deduplication produces a duplicate-free list (auxiliary
form). -/
theorem dedupByCoordinates_aux_nodup {posI posJ : List (ℚ × ℚ)} :
    ∀ (l acc : List (Nat × Nat)), acc.Nodup →
      (l.foldl (fun acc m =>
        if acc.any (fun m2 => coordKey posI posJ m2 = coordKey posI posJ m) then acc
        else acc ++ [m]) acc).Nodup := by
  intro l
  induction l with
  | nil => intro acc h; exact h
  | cons a tl ih =>
    intro acc h
    by_cases ha : acc.any (fun m2 => coordKey posI posJ m2 = coordKey posI posJ a)
    · simpa [ha] using ih acc h
    · refine ih _ ?_
      simp only [if_neg ha]
      rw [List.nodup_append]
      refine ⟨h, List.nodup_singleton _, ?_⟩
      intro x hx hx2
      simp only [List.mem_singleton] at hx2
      rcases hx2 with rfl
      exact ha (List.any_eq_true.mpr ⟨x, hx, by simp⟩)

/-- The coordinate deduplication produces a duplicate-free list. -/
theorem dedupByCoordinates_nodup (posI posJ : List (ℚ × ℚ)) (l : List (Nat × Nat)) :
    (dedupByCoordinates posI posJ l).Nodup :=
  dedupByCoordinates_aux_nodup l [] (List.nodup_nil)

/-- Membership in the ratio filter: group `g` is retained iff it exists in the
distance sequence and its first distance is strictly below `ratio` times its
second. -/
theorem mem_NNdistanceRatio {dists : List ℚ} {ratio : ℚ} {g : Nat} :
    g ∈ NNdistanceRatio dists ratio ↔
      g < dists.length / 2 ∧ dists.getD (2 * g) 0 < ratio * dists.getD (2 * g + 1) 0 := by
  simp [NNdistanceRatio, List.mem_filter, List.mem_range]

/-- A second-component-duplicate-free list stays so along any duplicate-free
sublist of it. -/
theorem seconds_nodup_of_sub {l sub : List (Nat × Nat)}
    (hsub : ∀ x ∈ sub, x ∈ l) (hnd : sub.Nodup)
    (hl : (l.map Prod.snd).Nodup) : (sub.map Prod.snd).Nodup := by
  refine List.Nodup.map_on ?_ hnd
  intro x hx y hy hxy
  exact List.inj_on_of_nodup_map hl (hsub x hx) (hsub y hy) hxy

/-- Every stored match of a pair originates from a ratio-retained group `g`,
as the swapped pair of the group's rank-1 candidate record. -/
theorem pairMatches_mem {ch : CascadeHasher} {hb : Nat → HashedDescriptions} {r : ℚ}
    {I J : Nat} {regionsI regionsJ : RegionSet} {m : Nat × Nat}
    (hm : m ∈ pairMatches ch hb r I J regionsI regionsJ) :
    ∃ g ∈ NNdistanceRatio
        (ch.matchHashedDescriptions (hb J) regionsJ.descriptors (hb I) regionsI.descriptors).2
        (Square r),
      m = (((ch.matchHashedDescriptions (hb J) regionsJ.descriptors (hb I) regionsI.descriptors).1.getD
              (g * 2) default).j_,
           ((ch.matchHashedDescriptions (hb J) regionsJ.descriptors (hb I) regionsI.descriptors).1.getD
              (g * 2) default).i_) := by
  simp only [pairMatches] at hm
  have h1 := dedupByCoordinates_sub hm
  have h2 := getDeduplicated_sub h1
  rw [List.mem_map] at h2
  obtain ⟨g, hg, hgeq⟩ := h2
  exact ⟨g, hg, hgeq.symm⟩

/-- Shape of every stored match under the engine's k-NN contract: the second
component is the query-local (J) index and the first component is the rank-1
base-local (I) candidate of that query. -/
theorem pairMatches_entries {ch : CascadeHasher} {hb : Nat → HashedDescriptions} {r : ℚ}
    {I J : Nat} {regionsI regionsJ : RegionSet} {idx : List IndMatch} {dst : List ℚ}
    (heq : ch.matchHashedDescriptions (hb J) regionsJ.descriptors (hb I) regionsI.descriptors
      = (idx, dst))
    (hlen : dst.length = 2 * regionsJ.descriptors.length)
    (hq : ∀ g, g < regionsJ.descriptors.length →
      (idx.getD (2 * g) default).i_ = g ∧
      (idx.getD (2 * g) default).j_ < regionsI.descriptors.length) :
    ∀ m ∈ pairMatches ch hb r I J regionsI regionsJ,
      m.2 < regionsJ.descriptors.length ∧
      m.1 = (idx.getD (2 * m.2) default).j_ ∧
      m.1 < regionsI.descriptors.length := by
  intro m hm
  obtain ⟨g, hg, hmeq⟩ := pairMatches_mem hm
  rw [heq] at hg hmeq
  rw [mem_NNdistanceRatio] at hg
  have hn : g < regionsJ.descriptors.length := by
    have := hg.1
    rw [hlen, Nat.mul_div_cancel_left _ (by norm_num : 0 < 2)] at this
    exact this
  obtain ⟨hi, hj⟩ := hq g hn
  rw [Nat.mul_comm 2 g] at hi hj
  subst hmeq
  simp only [hi]
  rw [Nat.mul_comm g 2] at hi hj ⊢
  exact ⟨hn, rfl, hj⟩

/-- C1.  Distance ratio test: a query's 2-neighbor group with distances
d1, d2 is retained iff d1 < ratioThreshold² · d2 (the call site passes
`Square(fDistRatio)` to the filter), and boundary equality
d1 = ratioThreshold² · d2 is rejected. -/
theorem c1_ratio_test (dists : List ℚ) (r : ℚ) (g : Nat) :
    (g ∈ NNdistanceRatio dists (Square r) ↔
      g < dists.length / 2 ∧
        dists.getD (2 * g) 0 < r * r * dists.getD (2 * g + 1) 0) ∧
    (dists.getD (2 * g) 0 = r * r * dists.getD (2 * g + 1) 0 →
      g ∉ NNdistanceRatio dists (Square r)) := by
  constructor
  · rw [mem_NNdistanceRatio, Square]
  · intro heq hg
    rw [mem_NNdistanceRatio, Square] at hg
    rw [heq] at hg
    exact lt_irrefl _ hg.2

/-- Witness for C1 at concrete inputs: distances (2, 8) with threshold 1/2,
so that d1 is exactly the squared threshold times d2 and the group is
rejected. -/
theorem c1_ratio_test_witness :
    ([2, 8] : List ℚ).getD (2 * 0) 0 = (1/2 : ℚ) * (1/2) * ([2, 8] : List ℚ).getD (2 * 0 + 1) 0 ∧
    0 ∉ NNdistanceRatio [2, 8] (Square (1/2)) :=
  ⟨by norm_num, (c1_ratio_test [2, 8] (1/2) 0).2 (by norm_num)⟩

/-- C2.  Index-order swap on emission: under the engine's k-NN contract for
pair (I, J) — J the query side, I the base side — every stored match record
has I's local index (the query's rank-1 base candidate) as its first
component and J's local (query) index as its second component. -/
theorem c2_index_swap (ch : CascadeHasher) (hb : Nat → HashedDescriptions) (r : ℚ)
    (I J : Nat) (regionsI regionsJ : RegionSet) (idx : List IndMatch) (dst : List ℚ)
    (heq : ch.matchHashedDescriptions (hb J) regionsJ.descriptors (hb I) regionsI.descriptors
      = (idx, dst))
    (hlen : dst.length = 2 * regionsJ.descriptors.length)
    (hq : ∀ g, g < regionsJ.descriptors.length →
      (idx.getD (2 * g) default).i_ = g ∧
      (idx.getD (2 * g) default).j_ < regionsI.descriptors.length) :
    ∀ m ∈ pairMatches ch hb r I J regionsI regionsJ,
      m.2 < regionsJ.descriptors.length ∧
      m.1 = (idx.getD (2 * m.2) default).j_ ∧
      m.1 < regionsI.descriptors.length :=
  pairMatches_entries heq hlen hq

/-- Witness for C2: a 1-descriptor query image against a 2-descriptor base
image with candidates (0, dist 1) and (1, dist 4): the stored match (0, 0)
has the base-local index first and the query-local index second. -/
theorem c2_index_swap_witness :
    wHasherC.matchHashedDescriptions (wHB 1) wRegOne.descriptors (wHB 0) wRegTwo.descriptors
      = ([⟨0, 0⟩, ⟨0, 1⟩], [1, 4]) ∧
    (0, 0) ∈ pairMatches wHasherC wHB (4/5) 0 1 wRegTwo wRegOne ∧
    ((0, 0) : Nat × Nat).2 < wRegOne.descriptors.length ∧
    ((0, 0) : Nat × Nat).1
      = (([⟨0, 0⟩, ⟨0, 1⟩] : List IndMatch).getD (2 * ((0, 0) : Nat × Nat).2) default).j_ ∧
    ((0, 0) : Nat × Nat).1 < wRegTwo.descriptors.length := by
  refine ⟨rfl, ?_, ?_⟩
  · norm_num [pairMatches, NNdistanceRatio, getDeduplicated, dedupByCoordinates, coordKey,
      Square, wHasherC, wHB, wRegTwo, wRegOne, List.range_succ]
  · exact c2_index_swap wHasherC wHB (4/5) 0 1 wRegTwo wRegOne _ _ rfl (by decide) (by decide)
      (0, 0) (by norm_num [pairMatches, NNdistanceRatio, getDeduplicated, dedupByCoordinates,
        coordKey, Square, wHasherC, wHB, wRegTwo, wRegOne, List.range_succ])

/-- C10.  In every stored match list, each J-local (query) index appears as
the second component of at most one match, and the first component is always
the query's rank-1 base candidate index (the rank-2 candidate record feeds
only the ratio test). -/
theorem c10_unique_query (ch : CascadeHasher) (hb : Nat → HashedDescriptions) (r : ℚ)
    (I J : Nat) (regionsI regionsJ : RegionSet) (idx : List IndMatch) (dst : List ℚ)
    (heq : ch.matchHashedDescriptions (hb J) regionsJ.descriptors (hb I) regionsI.descriptors
      = (idx, dst))
    (hlen : dst.length = 2 * regionsJ.descriptors.length)
    (hq : ∀ g, g < regionsJ.descriptors.length →
      (idx.getD (2 * g) default).i_ = g ∧
      (idx.getD (2 * g) default).j_ < regionsI.descriptors.length) :
    ((pairMatches ch hb r I J regionsI regionsJ).map Prod.snd).Nodup ∧
    ∀ m ∈ pairMatches ch hb r I J regionsI regionsJ,
      m.1 = (idx.getD (2 * m.2) default).j_ := by
  have hAmem : ∀ g ∈ NNdistanceRatio dst (Square r), g < regionsJ.descriptors.length := by
    intro g hg
    rw [mem_NNdistanceRatio] at hg
    have := hg.1
    rwa [hlen, Nat.mul_div_cancel_left _ (by norm_num : 0 < 2)] at this
  have hpm_eq : pairMatches ch hb r I J regionsI regionsJ
      = dedupByCoordinates regionsI.positions regionsJ.positions
          (getDeduplicated ((NNdistanceRatio dst (Square r)).map fun g =>
            ((idx.getD (g * 2) default).j_, (idx.getD (g * 2) default).i_))) := by
    simp only [pairMatches, heq]
  constructor
  · have hA_nodup : (NNdistanceRatio dst (Square r)).Nodup :=
      List.Nodup.filter _ (List.nodup_range _)
    have h0 : (((NNdistanceRatio dst (Square r)).map fun g =>
        ((idx.getD (g * 2) default).j_, (idx.getD (g * 2) default).i_)).map Prod.snd).Nodup := by
      rw [List.map_map]
      refine List.Nodup.map_on ?_ hA_nodup
      intro x hx y hy hxy
      have hix := (hq x (hAmem x hx)).1
      have hiy := (hq y (hAmem y hy)).1
      rw [Nat.mul_comm 2 x] at hix
      rw [Nat.mul_comm 2 y] at hiy
      simp only [Function.comp_apply] at hxy
      rw [hix, hiy] at hxy
      exact hxy
    refine seconds_nodup_of_sub ?_ ?_ h0
    · intro x hx
      rw [hpm_eq] at hx
      exact getDeduplicated_sub (dedupByCoordinates_sub hx)
    · rw [hpm_eq]
      exact dedupByCoordinates_nodup _ _ _
  · intro m hm
    exact ((pairMatches_entries heq hlen hq) m hm).2.1

/-- Witness for C10 at the same concrete pair as the C2 witness. -/
theorem c10_unique_query_witness :
    wHasherC.matchHashedDescriptions (wHB 1) wRegOne.descriptors (wHB 0) wRegTwo.descriptors
      = ([⟨0, 0⟩, ⟨0, 1⟩], [1, 4]) ∧
    ((pairMatches wHasherC wHB (4/5) 0 1 wRegTwo wRegOne).map Prod.snd).Nodup := by
  refine ⟨rfl, ?_⟩
  exact (c10_unique_query wHasherC wHB (4/5) 0 1 wRegTwo wRegOne _ _ rfl (by decide)
    (by decide)).1

section

variable (ch : CascadeHasher) (provider : Regions_Provider) (hb : Nat → HashedDescriptions)
variable (r : ℚ) (oracle : Nat → Bool) (I : Nat) (regionsI : RegionSet)

/-- One inner iteration consults the cancellation flag exactly once. -/
theorem processPair_tick (s : MatchState) (J : Nat) :
    (processPair ch provider hb r oracle I regionsI s J).tick = s.tick + 1 := by
  unfold processPair
  by_cases hc : oracle s.tick
  · simp [hc]
  · by_cases ht : regionsI.type_id = (provider.get J).type_id <;> simp [hc, ht]

/-- One inner iteration advances progress by zero or one. -/
theorem processPair_progress_le (s : MatchState) (J : Nat) :
    s.progress ≤ (processPair ch provider hb r oracle I regionsI s J).progress ∧
    (processPair ch provider hb r oracle I regionsI s J).progress ≤ s.progress + 1 := by
  unfold processPair
  by_cases hc : oracle s.tick
  · simp [hc]
  · by_cases ht : regionsI.type_id = (provider.get J).type_id <;> simp [hc, ht]

/-- Output effect of one inner iteration: either the collection is untouched,
or (types agreeing, match list non-empty) the pair's list is inserted under
its own key. -/
theorem processPair_out_cases (s : MatchState) (J : Nat) :
    (processPair ch provider hb r oracle I regionsI s J).out = s.out ∨
    (regionsI.type_id = (provider.get J).type_id ∧
     pairMatches ch hb r I J regionsI (provider.get J) ≠ [] ∧
     (processPair ch provider hb r oracle I regionsI s J).out =
       pmInsert (I, J) (pairMatches ch hb r I J regionsI (provider.get J)) s.out) := by
  unfold processPair
  by_cases hc : oracle s.tick
  · simp [hc]
  · by_cases ht : regionsI.type_id = (provider.get J).type_id
    · by_cases hm : pairMatches ch hb r I J regionsI (provider.get J) = []
      · simp [hc, ht, hm]
      · exact Or.inr ⟨ht, hm, by simp [hc, ht, hm]⟩
    · simp [hc, ht]

/-- One inner iteration never touches another pair's binding. -/
theorem processPair_lookup_ne {k : Nat × Nat} (s : MatchState) (J : Nat) (hk : k ≠ (I, J)) :
    pmLookup k (processPair ch provider hb r oracle I regionsI s J).out = pmLookup k s.out := by
  rcases processPair_out_cases ch provider hb r oracle I regionsI s J with h | ⟨_, _, h⟩
  · rw [h]
  · rw [h, pmLookup_pmInsert_ne hk]

/-- One inner iteration never drops or overwrites an existing binding. -/
theorem processPair_preserves_some {k : Nat × Nat} {v : List (Nat × Nat)} (s : MatchState)
    (J : Nat) (h : pmLookup k s.out = some v) :
    pmLookup k (processPair ch provider hb r oracle I regionsI s J).out = some v := by
  rcases processPair_out_cases ch provider hb r oracle I regionsI s J with h2 | ⟨_, _, h2⟩
  · rw [h2, h]
  · rw [h2, pmInsert_preserves_some _ _ h]

/-- One inner iteration keeps the stored keys duplicate-free. -/
theorem processPair_keys_nodup (s : MatchState) (J : Nat)
    (h : (s.out.map Prod.fst).Nodup) :
    ((processPair ch provider hb r oracle I regionsI s J).out.map Prod.fst).Nodup := by
  rcases processPair_out_cases ch provider hb r oracle I regionsI s J with h2 | ⟨_, _, h2⟩
  · rw [h2]; exact h
  · rw [h2]; exact pmInsert_keys_nodup _ _ h

/-- When the cancellation flag is unset, one inner iteration is exactly the
`pairAct` output action plus one unit of progress and one consultation. -/
theorem processPair_noCancel (s : MatchState) (J : Nat) (hc : oracle s.tick = false) :
    processPair ch provider hb r oracle I regionsI s J =
      { out := pairAct ch provider hb r I regionsI s.out J
        progress := s.progress + 1
        tick := s.tick + 1 } := by
  unfold processPair pairAct
  by_cases ht : regionsI.type_id = (provider.get J).type_id
  · by_cases hm : pairMatches ch hb r I J regionsI (provider.get J) = [] <;>
      simp [hc, ht, hm]
  · simp [hc, ht]

/-- When the flag observed at the current consultation is set and the flag is
monotone (cancellation is sticky), the whole remaining inner loop only
consumes consultations: no output, no progress. -/
theorem fold_canceled (hmono : ∀ t, oracle t = true → oracle (t + 1) = true) :
    ∀ (Js : List Nat) (s : MatchState), oracle s.tick = true →
      Js.foldl (processPair ch provider hb r oracle I regionsI) s =
        { s with tick := s.tick + Js.length } := by
  intro Js
  induction Js with
  | nil => intro s _; simp
  | cons J tl ih =>
    intro s hc
    have hstep : processPair ch provider hb r oracle I regionsI s J = { s with tick := s.tick + 1 } := by
      unfold processPair; simp [hc]
    simp only [List.foldl_cons, hstep]
    rw [ih _ (hmono _ hc)]
    simp [Nat.add_assoc, Nat.add_comm 1 tl.length]

/-- Bindings survive the whole inner loop. -/
theorem fold_preserves_some {k : Nat × Nat} {v : List (Nat × Nat)} :
    ∀ (Js : List Nat) (s : MatchState), pmLookup k s.out = some v →
      pmLookup k (Js.foldl (processPair ch provider hb r oracle I regionsI) s).out = some v := by
  intro Js
  induction Js with
  | nil => intro s h; exact h
  | cons J tl ih =>
    intro s h
    exact ih _ (processPair_preserves_some ch provider hb r oracle I regionsI s J h)

/-- The inner loop of group `I` only ever writes keys (I, J) for its own
members `J`. -/
theorem fold_lookup_ne {k : Nat × Nat} :
    ∀ (Js : List Nat) (s : MatchState), (k.1 ≠ I ∨ k.2 ∉ Js) →
      pmLookup k (Js.foldl (processPair ch provider hb r oracle I regionsI) s).out =
        pmLookup k s.out := by
  intro Js
  induction Js with
  | nil => intro s _; rfl
  | cons J tl ih =>
    intro s hk
    have hne : k ≠ (I, J) := by
      rcases hk with h | h
      · intro he; exact h (by rw [he])
      · intro he; exact h (by rw [he]; exact List.mem_cons_self _ _)
    have htl : k.1 ≠ I ∨ k.2 ∉ tl := by
      rcases hk with h | h
      · exact Or.inl h
      · exact Or.inr fun h2 => h (List.mem_cons_of_mem _ h2)
    simp only [List.foldl_cons]
    rw [ih _ htl, processPair_lookup_ne ch provider hb r oracle I regionsI s J hne]

/-- Any binding changed by the inner loop is a member pair's binding, written
with that pair's own (state-independent) match list. -/
theorem fold_added {k : Nat × Nat} :
    ∀ (Js : List Nat) (s : MatchState),
      pmLookup k (Js.foldl (processPair ch provider hb r oracle I regionsI) s).out ≠
        pmLookup k s.out →
      ∃ J ∈ Js, k = (I, J) ∧
        regionsI.type_id = (provider.get J).type_id ∧
        pairMatches ch hb r I J regionsI (provider.get J) ≠ [] ∧
        pmLookup k (Js.foldl (processPair ch provider hb r oracle I regionsI) s).out =
          some (pairMatches ch hb r I J regionsI (provider.get J)) := by
  intro Js
  induction Js with
  | nil => intro s h; exact absurd rfl h
  | cons J tl ih =>
    intro s h
    by_cases hstep :
        pmLookup k (processPair ch provider hb r oracle I regionsI s J).out = pmLookup k s.out
    · have h2 : pmLookup k (tl.foldl (processPair ch provider hb r oracle I regionsI)
          (processPair ch provider hb r oracle I regionsI s J)).out ≠
          pmLookup k (processPair ch provider hb r oracle I regionsI s J).out := by
        simpa [List.foldl_cons, hstep] using h
      obtain ⟨J2, hJ2, hk, ht, hm, hv⟩ := ih _ h2
      exact ⟨J2, List.mem_cons_of_mem _ hJ2, hk, ht, hm, by simpa [List.foldl_cons] using hv⟩
    · rcases processPair_out_cases ch provider hb r oracle I regionsI s J with h2 | ⟨ht, hm, h2⟩
      · exact absurd (by rw [h2]) hstep
      · have hk : k = (I, J) := by
          by_contra hk
          exact hstep (by rw [h2, pmLookup_pmInsert_ne hk])
        have hnone : pmLookup k s.out = none := by
          rcases hs : pmLookup k s.out with _ | w
          · rfl
          · exact absurd (by rw [h2, pmInsert_preserves_some _ _ hs, hs]) hstep
        have hval : pmLookup k (processPair ch provider hb r oracle I regionsI s J).out =
            some (pairMatches ch hb r I J regionsI (provider.get J)) := by
          rw [h2, hk, pmLookup_pmInsert]
          simp [hk ▸ hnone]
        refine ⟨J, List.mem_cons_self _ _, hk, ht, hm, ?_⟩
        simp only [List.foldl_cons]
        exact fold_preserves_some ch provider hb r oracle I regionsI tl _ hval

/-- The inner loop advances progress by at most its member count. -/
theorem fold_progress_le :
    ∀ (Js : List Nat) (s : MatchState),
      (Js.foldl (processPair ch provider hb r oracle I regionsI) s).progress ≤
        s.progress + Js.length := by
  intro Js
  induction Js with
  | nil => intro s; simp
  | cons J tl ih =>
    intro s
    calc (tl.foldl (processPair ch provider hb r oracle I regionsI)
            (processPair ch provider hb r oracle I regionsI s J)).progress
        ≤ (processPair ch provider hb r oracle I regionsI s J).progress + tl.length := ih _
      _ ≤ s.progress + 1 + tl.length :=
          Nat.add_le_add_right (processPair_progress_le ch provider hb r oracle I regionsI s J).2 _
      _ = s.progress + (tl.length + 1) := by omega
      _ = s.progress + (J :: tl).length := by simp

/-- The inner loop keeps the stored keys duplicate-free. -/
theorem fold_keys_nodup :
    ∀ (Js : List Nat) (s : MatchState), (s.out.map Prod.fst).Nodup →
      ((Js.foldl (processPair ch provider hb r oracle I regionsI) s).out.map Prod.fst).Nodup := by
  intro Js
  induction Js with
  | nil => intro s h; exact h
  | cons J tl ih =>
    intro s h
    exact ih _ (processPair_keys_nodup ch provider hb r oracle I regionsI s J h)

end

section

variable (ch : CascadeHasher) (provider : Regions_Provider) (hb : Nat → HashedDescriptions)
variable (r : ℚ) (oracle : Nat → Bool) (I : Nat) (regionsI : RegionSet)

/-- With the cancellation flag never set, the inner loop is exactly the fold
of the `pairAct` output actions, with one progress unit and one consultation
per member. -/
theorem fold_noCancel_decomp (hor : ∀ t, oracle t = false) :
    ∀ (Js : List Nat) (s : MatchState),
      Js.foldl (processPair ch provider hb r oracle I regionsI) s =
        { out := Js.foldl (pairAct ch provider hb r I regionsI) s.out
          progress := s.progress + Js.length
          tick := s.tick + Js.length } := by
  intro Js
  induction Js with
  | nil => intro s; simp
  | cons J tl ih =>
    intro s
    simp only [List.foldl_cons]
    rw [processPair_noCancel ch provider hb r oracle I regionsI s J (hor s.tick), ih]
    simp only [List.length_cons, MatchState.mk.injEq]
    refine ⟨trivial, by omega, by omega⟩

/-- A pair whose computed match list is empty never gets a binding from the
inner loop. -/
theorem fold_value_empty {J : Nat}
    (hm : pairMatches ch hb r I J regionsI (provider.get J) = []) :
    ∀ (Js : List Nat) (s : MatchState),
      pmLookup (I, J) (Js.foldl (processPair ch provider hb r oracle I regionsI) s).out =
        pmLookup (I, J) s.out := by
  intro Js
  induction Js with
  | nil => intro s; rfl
  | cons J2 tl ih =>
    intro s
    simp only [List.foldl_cons]
    rw [ih]
    by_cases hJ : J2 = J
    · subst hJ
      rcases processPair_out_cases ch provider hb r oracle I regionsI s J2 with h | ⟨_, hne, _⟩
      · rw [h]
      · exact absurd hm hne
    · exact processPair_lookup_ne ch provider hb r oracle I regionsI s J2
        (by intro he; exact hJ (congrArg Prod.snd he).symm)

/-- With no cancellation, a member pair with agreeing types and a non-empty
match list ends the inner loop bound to exactly that list (whether it was
inserted now or already present with the same value). -/
theorem fold_value_some {J : Nat} (hor : ∀ t, oracle t = false)
    (ht : regionsI.type_id = (provider.get J).type_id)
    (hm : pairMatches ch hb r I J regionsI (provider.get J) ≠ []) :
    ∀ (Js : List Nat) (s : MatchState), J ∈ Js →
      (pmLookup (I, J) s.out = none ∨
        pmLookup (I, J) s.out = some (pairMatches ch hb r I J regionsI (provider.get J))) →
      pmLookup (I, J) (Js.foldl (processPair ch provider hb r oracle I regionsI) s).out =
        some (pairMatches ch hb r I J regionsI (provider.get J)) := by
  intro Js
  induction Js with
  | nil => intro s hJ _; exact absurd hJ (List.not_mem_nil _)
  | cons J2 tl ih =>
    intro s hJ hinv
    simp only [List.foldl_cons]
    by_cases hJ2 : J2 = J
    · subst hJ2
      have hstep : pmLookup (I, J2)
          (processPair ch provider hb r oracle I regionsI s J2).out =
          some (pairMatches ch hb r I J2 regionsI (provider.get J2)) := by
        rw [processPair_noCancel ch provider hb r oracle I regionsI s J2 (hor s.tick)]
        simp only [pairAct, ht, hm, ne_eq, not_false_iff, and_self, if_true]
        rcases hinv with h | h
        · rw [pmLookup_pmInsert]; simp [h]
        · exact pmInsert_preserves_some _ _ h
      exact fold_preserves_some ch provider hb r oracle I regionsI tl _ hstep
    · have hne : ((I, J) : Nat × Nat) ≠ (I, J2) := by
        intro he; exact hJ2 ((congrArg Prod.snd he).symm)
      rw [← processPair_lookup_ne ch provider hb r oracle I regionsI s J2 hne] at hinv
      exact ih _ ((List.mem_cons.mp hJ).resolve_left fun h => hJ2 h.symm) hinv

end

/-- Unfolding equation: the outer loop on an empty group list. -/
theorem runGroups_nil (ch : CascadeHasher) (provider : Regions_Provider)
    (hb : Nat → HashedDescriptions) (r : ℚ) (oracle : Nat → Bool) (s : MatchState) :
    runGroups ch provider hb r oracle [] s = s := rfl

/-- Unfolding equation: one step of the outer loop — consult the flag
(break), skip an empty first image counting the whole group, or run the inner
loop. -/
theorem runGroups_cons (ch : CascadeHasher) (provider : Regions_Provider)
    (hb : Nat → HashedDescriptions) (r : ℚ) (oracle : Nat → Bool)
    (I : Nat) (Js : List Nat) (rest : List (Nat × List Nat)) (s : MatchState) :
    runGroups ch provider hb r oracle ((I, Js) :: rest) s =
      if oracle s.tick then s
      else if (provider.get I).descriptors.length = 0 then
        runGroups ch provider hb r oracle rest
          { out := s.out, progress := s.progress + Js.length, tick := s.tick + 1 }
      else
        runGroups ch provider hb r oracle rest
          (Js.foldl (processPair ch provider hb r oracle I (provider.get I))
            { s with tick := s.tick + 1 }) := rfl

section

variable (ch : CascadeHasher) (provider : Regions_Provider) (hb : Nat → HashedDescriptions)
variable (r : ℚ) (oracle : Nat → Bool)

/-- If the cancellation flag is observed set at a group boundary, the outer
loop breaks at once: the state is returned as is. -/
theorem runGroups_canceled (gs : List (Nat × List Nat)) (s : MatchState)
    (hc : oracle s.tick = true) :
    runGroups ch provider hb r oracle gs s = s := by
  cases gs with
  | nil => rfl
  | cons g rest =>
    obtain ⟨I, Js⟩ := g
    rw [runGroups_cons, if_pos hc]

/-- Bindings survive the whole outer loop. -/
theorem runGroups_preserves_some {k : Nat × Nat} {v : List (Nat × Nat)} :
    ∀ (gs : List (Nat × List Nat)) (s : MatchState), pmLookup k s.out = some v →
      pmLookup k (runGroups ch provider hb r oracle gs s).out = some v := by
  intro gs
  induction gs with
  | nil => intro s h; exact h
  | cons g rest ih =>
    intro s h
    obtain ⟨I, Js⟩ := g
    rw [runGroups_cons]
    by_cases hc : oracle s.tick
    · rw [if_pos hc]; exact h
    · rw [if_neg hc]
      by_cases he : (provider.get I).descriptors.length = 0
      · rw [if_pos he]; exact ih _ h
      · rw [if_neg he]
        exact ih _ (fold_preserves_some ch provider hb r oracle I (provider.get I) Js _ h)

/-- The outer loop leaves every key alone that no group/member combination
names. -/
theorem runGroups_frame {k : Nat × Nat} :
    ∀ (gs : List (Nat × List Nat)) (s : MatchState),
      (∀ g ∈ gs, k.1 ≠ g.1 ∨ k.2 ∉ g.2) →
      pmLookup k (runGroups ch provider hb r oracle gs s).out = pmLookup k s.out := by
  intro gs
  induction gs with
  | nil => intro s _; rfl
  | cons g rest ih =>
    intro s hk
    obtain ⟨I, Js⟩ := g
    rw [runGroups_cons]
    by_cases hc : oracle s.tick
    · rw [if_pos hc]
    · rw [if_neg hc]
      by_cases he : (provider.get I).descriptors.length = 0
      · rw [if_pos he]
        exact ih _ fun g hg => hk g (List.mem_cons_of_mem _ hg)
      · rw [if_neg he]
        rw [ih _ fun g hg => hk g (List.mem_cons_of_mem _ hg)]
        exact fold_lookup_ne ch provider hb r oracle I (provider.get I) Js _
          (hk (I, Js) (List.mem_cons_self _ _))

/-- Any binding changed by the outer loop belongs to some grouped pair whose
first image has regions, whose scalar types agree and whose computed match
list is non-empty; the binding holds exactly that list. -/
theorem runGroups_added {k : Nat × Nat} :
    ∀ (gs : List (Nat × List Nat)) (s : MatchState),
      pmLookup k (runGroups ch provider hb r oracle gs s).out ≠ pmLookup k s.out →
      ∃ g ∈ gs, ∃ J ∈ g.2, k = (g.1, J) ∧
        (provider.get g.1).descriptors ≠ [] ∧
        (provider.get g.1).type_id = (provider.get J).type_id ∧
        pairMatches ch hb r g.1 J (provider.get g.1) (provider.get J) ≠ [] ∧
        pmLookup k (runGroups ch provider hb r oracle gs s).out =
          some (pairMatches ch hb r g.1 J (provider.get g.1) (provider.get J)) := by
  intro gs
  induction gs with
  | nil => intro s h; exact absurd rfl h
  | cons g rest ih =>
    intro s h
    obtain ⟨I, Js⟩ := g
    rw [runGroups_cons] at h ⊢
    by_cases hc : oracle s.tick
    · rw [if_pos hc] at h; exact absurd rfl h
    · rw [if_neg hc] at h ⊢
      by_cases he : (provider.get I).descriptors.length = 0
      · rw [if_pos he] at h ⊢
        obtain ⟨g, hg, rest_wit⟩ := ih _ h
        exact ⟨g, List.mem_cons_of_mem _ hg, rest_wit⟩
      · rw [if_neg he] at h ⊢
        set s1 := Js.foldl (processPair ch provider hb r oracle I (provider.get I))
          { s with tick := s.tick + 1 } with hs1
        by_cases hmid : pmLookup k s1.out = pmLookup k s.out
        · have h2 : pmLookup k (runGroups ch provider hb r oracle rest s1).out ≠
              pmLookup k s1.out := by rw [hmid]; exact h
          obtain ⟨g, hg, rest_wit⟩ := ih _ h2
          exact ⟨g, List.mem_cons_of_mem _ hg, rest_wit⟩
        · have hmid2 : pmLookup k s1.out ≠
              pmLookup k ({ s with tick := s.tick + 1 } : MatchState).out := hmid
          obtain ⟨J, hJ, hk, ht, hm, hv⟩ :=
            fold_added ch provider hb r oracle I (provider.get I) Js _ hmid2
          refine ⟨(I, Js), List.mem_cons_self _ _, J, hJ, hk, ?_, ht, hm, ?_⟩
          · intro hnil
            exact he (by rw [hnil]; rfl)
          · exact runGroups_preserves_some ch provider hb r oracle rest s1 hv

/-- The outer loop advances progress by at most the total member count. -/
theorem runGroups_progress_le :
    ∀ (gs : List (Nat × List Nat)) (s : MatchState),
      (runGroups ch provider hb r oracle gs s).progress ≤
        s.progress + (gs.map fun g => g.2.length).sum := by
  intro gs
  induction gs with
  | nil => intro s; simp [runGroups_nil]
  | cons g rest ih =>
    intro s
    obtain ⟨I, Js⟩ := g
    rw [runGroups_cons]
    by_cases hc : oracle s.tick
    · rw [if_pos hc]; simp
    · rw [if_neg hc]
      by_cases he : (provider.get I).descriptors.length = 0
      · rw [if_pos he]
        calc (runGroups ch provider hb r oracle rest _).progress
            ≤ (s.progress + Js.length) + (rest.map fun g => g.2.length).sum := ih _
          _ ≤ s.progress + ((I, Js) :: rest |>.map fun g => g.2.length).sum := by
              simp; omega
      · rw [if_neg he]
        calc (runGroups ch provider hb r oracle rest _).progress
            ≤ (Js.foldl (processPair ch provider hb r oracle I (provider.get I))
                { s with tick := s.tick + 1 }).progress +
                (rest.map fun g => g.2.length).sum := ih _
          _ ≤ (s.progress + Js.length) + (rest.map fun g => g.2.length).sum := by
              have := fold_progress_le ch provider hb r oracle I (provider.get I) Js
                ({ s with tick := s.tick + 1 })
              simp at this
              omega
          _ ≤ s.progress + ((I, Js) :: rest |>.map fun g => g.2.length).sum := by
              simp; omega

/-- With no cancellation, the outer loop advances progress by exactly the
total member count. -/
theorem runGroups_progress_noCancel (hor : ∀ t, oracle t = false) :
    ∀ (gs : List (Nat × List Nat)) (s : MatchState),
      (runGroups ch provider hb r oracle gs s).progress =
        s.progress + (gs.map fun g => g.2.length).sum := by
  intro gs
  induction gs with
  | nil => intro s; simp [runGroups_nil]
  | cons g rest ih =>
    intro s
    obtain ⟨I, Js⟩ := g
    rw [runGroups_cons, if_neg (by rw [hor s.tick]; exact Bool.false_ne_true)]
    by_cases he : (provider.get I).descriptors.length = 0
    · rw [if_pos he, ih]
      simp; omega
    · rw [if_neg he, ih]
      rw [fold_noCancel_decomp ch provider hb r oracle I (provider.get I) hor]
      simp; omega

/-- The outer loop keeps the stored keys duplicate-free. -/
theorem runGroups_keys_nodup :
    ∀ (gs : List (Nat × List Nat)) (s : MatchState), (s.out.map Prod.fst).Nodup →
      ((runGroups ch provider hb r oracle gs s).out.map Prod.fst).Nodup := by
  intro gs
  induction gs with
  | nil => intro s h; exact h
  | cons g rest ih =>
    intro s h
    obtain ⟨I, Js⟩ := g
    rw [runGroups_cons]
    by_cases hc : oracle s.tick
    · rw [if_pos hc]; exact h
    · rw [if_neg hc]
      by_cases he : (provider.get I).descriptors.length = 0
      · rw [if_pos he]; exact ih _ h
      · rw [if_neg he]
        exact ih _ (fold_keys_nodup ch provider hb r oracle I (provider.get I) Js _ h)

end

/-- Membership in the grouping-key accumulator fold. -/
theorem mem_foldl_insert_fst :
    ∀ (pairs : List (Nat × Nat)) (s : Finset Nat) (x : Nat),
      (x ∈ pairs.foldl (fun s p => insert p.1 s) s) ↔ x ∈ s ∨ ∃ p ∈ pairs, p.1 = x := by
  intro pairs
  induction pairs with
  | nil => intro s x; simp
  | cons q tl ih =>
    intro s x
    rw [List.foldl_cons, ih]
    simp only [Finset.mem_insert, List.mem_cons]
    constructor
    · rintro ((h | h) | ⟨p, hp, hpx⟩)
      · exact Or.inr ⟨q, Or.inl rfl, h.symm⟩
      · exact Or.inl h
      · exact Or.inr ⟨p, Or.inr hp, hpx⟩
    · rintro (h | ⟨p, (rfl | hp), hpx⟩)
      · exact Or.inl (Or.inr h)
      · exact Or.inl (Or.inl hpx.symm)
      · exact Or.inr ⟨p, hp, hpx⟩

/-- A first index occurs among the grouping keys iff some input pair has it
as first component. -/
theorem mem_map_Pairs_keys {pairs : List (Nat × Nat)} {x : Nat} :
    x ∈ map_Pairs_keys pairs ↔ ∃ p ∈ pairs, p.1 = x := by
  unfold map_Pairs_keys
  rw [Finset.mem_sort, mem_foldl_insert_fst]
  simp

/-- The grouping keys are duplicate-free. -/
theorem map_Pairs_keys_nodup (pairs : List (Nat × Nat)) : (map_Pairs_keys pairs).Nodup :=
  Finset.sort_nodup _ _

/-- The grouping keys are sorted ascending. -/
theorem map_Pairs_keys_sorted (pairs : List (Nat × Nat)) :
    (map_Pairs_keys pairs).Sorted (· ≤ ·) :=
  Finset.sort_sorted _ _

/-- Membership in the used-image accumulator fold. -/
theorem mem_foldl_insert_both :
    ∀ (pairs : List (Nat × Nat)) (s : Finset Nat) (x : Nat),
      (x ∈ pairs.foldl (fun s p => insert p.2 (insert p.1 s)) s) ↔
        x ∈ s ∨ ∃ p ∈ pairs, p.1 = x ∨ p.2 = x := by
  intro pairs
  induction pairs with
  | nil => intro s x; simp
  | cons q tl ih =>
    intro s x
    rw [List.foldl_cons, ih]
    simp only [Finset.mem_insert, List.mem_cons]
    constructor
    · rintro ((h | h | h) | ⟨p, hp, hpx⟩)
      · exact Or.inr ⟨q, Or.inl rfl, Or.inr h.symm⟩
      · exact Or.inr ⟨q, Or.inl rfl, Or.inl h.symm⟩
      · exact Or.inl h
      · exact Or.inr ⟨p, Or.inr hp, hpx⟩
    · rintro (h | ⟨p, (rfl | hp), (hpx | hpx)⟩)
      · exact Or.inl (Or.inr (Or.inr h))
      · exact Or.inl (Or.inr (Or.inl hpx.symm))
      · exact Or.inl (Or.inl hpx.symm)
      · exact Or.inr ⟨p, hp, Or.inl hpx⟩
      · exact Or.inr ⟨p, hp, Or.inr hpx⟩

/-- An image occurs in the used-image list iff some input pair references it. -/
theorem mem_usedIndexList {pairs : List (Nat × Nat)} {x : Nat} :
    x ∈ usedIndexList pairs ↔ ∃ p ∈ pairs, p.1 = x ∨ p.2 = x := by
  unfold usedIndexList used_index
  rw [Finset.mem_sort, mem_foldl_insert_both]
  simp

/-- The used-image list is sorted ascending. -/
theorem usedIndexList_sorted (pairs : List (Nat × Nat)) :
    (usedIndexList pairs).Sorted (· ≤ ·) :=
  Finset.sort_sorted _ _

/-- The used-image list is duplicate-free. -/
theorem usedIndexList_nodup (pairs : List (Nat × Nat)) : (usedIndexList pairs).Nodup :=
  Finset.sort_nodup _ _

/-- A second index is grouped under `I` iff (I, J) is an input pair. -/
theorem mem_secondsOf {pairs : List (Nat × Nat)} {I J : Nat} :
    J ∈ secondsOf pairs I ↔ (I, J) ∈ pairs := by
  unfold secondsOf
  rw [List.mem_map]
  constructor
  · rintro ⟨p, hp, rfl⟩
    rw [List.mem_filter] at hp
    have : p.1 = I := by simpa using hp.2
    have hpp : p = (I, p.2) := by rw [← this]
    rw [← hpp]; exact hp.1
  · intro h
    exact ⟨(I, J), List.mem_filter.mpr ⟨h, by simp⟩, rfl⟩

/-- The grouped list's keys are exactly the grouping keys. -/
theorem map_Pairs_fst (pairs : List (Nat × Nat)) :
    (map_Pairs pairs).map Prod.fst = map_Pairs_keys pairs := by
  unfold map_Pairs
  have h : (Prod.fst ∘ fun I : Nat => (I, secondsOf pairs I)) = id := rfl
  rw [List.map_map, h, List.map_id]

/-- The members of a group are exactly the seconds grouped under its key. -/
theorem mem_map_Pairs {pairs : List (Nat × Nat)} {g : Nat × List Nat} :
    g ∈ map_Pairs pairs ↔ g.1 ∈ map_Pairs_keys pairs ∧ g.2 = secondsOf pairs g.1 := by
  unfold map_Pairs
  rw [List.mem_map]
  constructor
  · rintro ⟨I, hI, rfl⟩
    exact ⟨hI, rfl⟩
  · rintro ⟨hI, hg⟩
    refine ⟨g.1, hI, ?_⟩
    obtain ⟨g1, g2⟩ := g
    simp only at hg
    rw [hg]

/-- Splitting a list's length by a Boolean predicate. -/
theorem length_filter_split (p : Nat × Nat → Bool) :
    ∀ (l : List (Nat × Nat)),
      l.length = (l.filter p).length + (l.filter fun x => !(p x)).length := by
  intro l
  induction l with
  | nil => rfl
  | cons a tl ih =>
    by_cases hp : p a <;> simp [List.filter_cons, hp, ih] <;> omega

/-- Summing group sizes over a duplicate-free key list covering every
element's key yields the whole length. -/
theorem sum_group_lengths :
    ∀ (L : List Nat) (ps : List (Nat × Nat)), L.Nodup → (∀ p ∈ ps, p.1 ∈ L) →
      (L.map fun I => (ps.filter fun p => p.1 == I).length).sum = ps.length := by
  intro L
  induction L with
  | nil =>
    intro ps _ hcov
    have : ps = [] := List.eq_nil_iff_forall_not_mem.mpr fun p hp => by
      simpa using hcov p hp
    rw [this]; rfl
  | cons I0 rest ih =>
    intro ps hnd hcov
    have hsplit := length_filter_split (fun p => p.1 == I0) ps
    have hrest : ∀ I ∈ rest, (ps.filter fun p => p.1 == I)
        = ((ps.filter fun p => !(p.1 == I0)).filter fun p => p.1 == I) := by
      intro I hI
      rw [List.filter_filter]
      refine (List.filter_congr ?_).symm
      intro p _
      by_cases hp : p.1 = I
      · have hne : I ≠ I0 := by
          intro h
          exact (List.nodup_cons.mp hnd).1 (h ▸ hI)
        have hfalse : (p.1 == I0) = false := by
          simp only [beq_eq_false_iff_ne, ne_eq, hp]
          exact hne
        simp [hp, hfalse]
        exact hne
      · simp [hp]
    have hmap : (rest.map fun I => (ps.filter fun p => p.1 == I).length)
        = rest.map fun I => ((ps.filter fun p => !(p.1 == I0)).filter fun p => p.1 == I).length := by
      refine List.map_congr_left ?_
      intro I hI
      rw [hrest I hI]
    rw [List.map_cons, List.sum_cons, hmap,
      ih (ps.filter fun p => !(p.1 == I0)) (List.nodup_cons.mp hnd).2 ?_]
    · omega
    · intro p hp
      rw [List.mem_filter] at hp
      have := hcov p hp.1
      rw [List.mem_cons] at this
      rcases this with h | h
      · exfalso
        have h2 := hp.2
        simp [h] at h2
      · exact h

/-- The grouped member counts sum to the number of input pairs. -/
theorem map_Pairs_total_length (pairs : List (Nat × Nat)) :
    ((map_Pairs pairs).map fun g => g.2.length).sum = pairs.length := by
  have h1 : (map_Pairs pairs).map (fun g => g.2.length)
      = (map_Pairs_keys pairs).map fun I => (pairs.filter fun p => p.1 == I).length := by
    simp [map_Pairs, List.map_map, Function.comp, secondsOf]
  rw [h1]
  exact sum_group_lengths _ _ (map_Pairs_keys_nodup pairs)
    fun p hp => mem_map_Pairs_keys.mpr ⟨p, hp, rfl⟩

/-- With no cancellation, a grouped pair with a non-empty first image and
agreeing types ends the outer loop bound to its own match list when that list
is non-empty, and unbound (binding unchanged) when it is empty. -/
theorem runGroups_value (ch : CascadeHasher) (provider : Regions_Provider)
    (hb : Nat → HashedDescriptions) (r : ℚ) (oracle : Nat → Bool)
    (hor : ∀ t, oracle t = false) {I J : Nat}
    (ht : (provider.get I).type_id = (provider.get J).type_id)
    (hne : (provider.get I).descriptors ≠ []) :
    ∀ (gs : List (Nat × List Nat)) (s : MatchState) (Js : List Nat),
      (gs.map Prod.fst).Nodup → (I, Js) ∈ gs → J ∈ Js →
      (pmLookup (I, J) s.out = none ∨
        pmLookup (I, J) s.out = some (pairMatches ch hb r I J (provider.get I) (provider.get J))) →
      pmLookup (I, J) (runGroups ch provider hb r oracle gs s).out =
        if pairMatches ch hb r I J (provider.get I) (provider.get J) = []
        then pmLookup (I, J) s.out
        else some (pairMatches ch hb r I J (provider.get I) (provider.get J)) := by
  intro gs
  induction gs with
  | nil => intro s Js _ hmem _ _; exact absurd hmem (List.not_mem_nil _)
  | cons g0 rest ih =>
    intro s Js hnd hmem hJ hinv
    obtain ⟨I0, Js0⟩ := g0
    rw [runGroups_cons, if_neg (by rw [hor s.tick]; exact Bool.false_ne_true)]
    have hndc := hnd
    rw [List.map_cons] at hndc
    have hnotin := (List.nodup_cons.mp hndc).1
    have hnd2 := (List.nodup_cons.mp hndc).2
    rcases List.mem_cons.mp hmem with hg | hg
    · injection hg with h1 h2
      subst h1
      subst h2
      rw [if_neg fun h => hne (List.length_eq_zero.mp h)]
      have hframe : ∀ g ∈ rest, ((I, J) : Nat × Nat).1 ≠ g.1 ∨ ((I, J) : Nat × Nat).2 ∉ g.2 := by
        intro g hg2
        left
        intro hIg
        exact hnotin (hIg ▸ List.mem_map_of_mem Prod.fst hg2)
      by_cases hm : pairMatches ch hb r I J (provider.get I) (provider.get J) = []
      · rw [if_pos hm]
        rw [runGroups_frame ch provider hb r oracle rest _ hframe]
        rw [fold_value_empty ch provider hb r oracle I (provider.get I) hm]
      · rw [if_neg hm]
        refine runGroups_preserves_some ch provider hb r oracle rest _ ?_
        exact fold_value_some ch provider hb r oracle I (provider.get I) hor ht hm Js _ hJ hinv
    · have hI0 : I0 ≠ I := by
        intro h
        apply hnotin
        show I0 ∈ rest.map Prod.fst
        rw [h]
        exact List.mem_map_of_mem Prod.fst hg
      by_cases he : (provider.get I0).descriptors.length = 0
      · rw [if_pos he]
        exact ih _ _ hnd2 hg hJ hinv
      · rw [if_neg he]
        have hkeep : pmLookup (I, J)
            (Js0.foldl (processPair ch provider hb r oracle I0 (provider.get I0))
              { s with tick := s.tick + 1 }).out = pmLookup (I, J) s.out := by
          exact fold_lookup_ne ch provider hb r oracle I0 (provider.get I0) Js0 _
            (Or.inl fun h => hI0 h.symm)
        rw [← hkeep] at hinv
        rw [ih _ _ hnd2 hg hJ hinv, hkeep]

/-- A pair whose query image has no descriptors yields an empty match list,
given that the engine returns no distances for an empty query set. -/
theorem pairMatches_empty_query (ch : CascadeHasher) (hb : Nat → HashedDescriptions)
    (r : ℚ) (I J : Nat) (regionsI regionsJ : RegionSet)
    (hJ : regionsJ.descriptors = [])
    (hEmptyQ : ∀ hdJ hdI matI, (ch.matchHashedDescriptions hdJ [] hdI matI).2 = []) :
    pairMatches ch hb r I J regionsI regionsJ = [] := by
  have h2 : (ch.matchHashedDescriptions (hb J) regionsJ.descriptors (hb I)
      regionsI.descriptors).2 = [] := by
    rw [hJ]; exact hEmptyQ _ _ _
  simp [pairMatches, h2, NNdistanceRatio, getDeduplicated, dedupByCoordinates]

/-- Mapping an index walk with defaults over a full range is mapping over the
list itself. -/
theorem range_map_getD {α β : Type _} (l : List α) (d : α) (f : α → β) :
    (List.range l.length).map (fun i => f (l.getD i d)) = l.map f := by
  induction l with
  | nil => rfl
  | cons a tl ih =>
    rw [List.length_cons, List.range_succ_eq_map, List.map_cons, List.map_map]
    refine congrArg₂ List.cons ?_ ?_
    · simp
    · rw [← ih]
      refine List.map_congr_left ?_
      intro i _
      simp [Function.comp]

/-- The zero-mean stacking loop is a per-used-image map: the engine's
reduction row for images with regions, the all-zero row otherwise. -/
theorem matForZeroMean_eq (ch : CascadeHasher) (provider : Regions_Provider)
    (used : List Nat) :
    matForZeroMean ch provider used = used.map fun I =>
      if 0 < (provider.get I).descriptors.length
      then ch.getZeroMeanDescriptor (provider.get I).descriptors
      else List.replicate (zeroMeanWidth provider used) 0 := by
  unfold matForZeroMean
  exact range_map_getD used 0 (fun I =>
    if 0 < (provider.get I).descriptors.length
    then ch.getZeroMeanDescriptor (provider.get I).descriptors
    else List.replicate (zeroMeanWidth provider used) 0)

/-- C3.  Empty-region invariance: a pair either of whose images has no
descriptors gets no output entry; and a group whose first image is empty is
skipped whole, each member still counting one unit of progress. -/
theorem c3_empty_region (ch : CascadeHasher) (provider : Regions_Provider)
    (pairs : List (Nat × Nat)) (r : ℚ) (initMap : PMap) (oracle : Nat → Bool)
    (hEmptyQ : ∀ hdJ hdI matI, (ch.matchHashedDescriptions hdJ [] hdI matI).2 = [])
    (I J : Nat) (_hmem : (I, J) ∈ pairs)
    (hempty : (provider.get I).descriptors = [] ∨ (provider.get J).descriptors = []) :
    pmLookup (I, J) (impl.Match ch provider pairs r initMap oracle).out =
      pmLookup (I, J) initMap ∧
    (∀ (Js : List Nat) (rest : List (Nat × List Nat)) (s : MatchState),
      oracle s.tick = false → (provider.get I).descriptors = [] →
      runGroups ch provider (hashed_base ch provider pairs) r oracle ((I, Js) :: rest) s =
        runGroups ch provider (hashed_base ch provider pairs) r oracle rest
          { out := s.out, progress := s.progress + Js.length, tick := s.tick + 1 }) := by
  constructor
  · by_contra hne2
    obtain ⟨g, hg, J2, hJ2, hk, hnonempty, htype, hpm, hval⟩ :=
      runGroups_added ch provider (hashed_base ch provider pairs) r oracle (map_Pairs pairs)
        { out := initMap, progress := 0, tick := 0 } hne2
    have hg1 : g.1 = I := (congrArg Prod.fst hk).symm
    have hJ2e : J2 = J := (congrArg Prod.snd hk).symm
    rcases hempty with hEI | hEJ
    · exact hnonempty (by rw [hg1]; exact hEI)
    · apply hpm
      rw [hg1, hJ2e]
      exact pairMatches_empty_query ch (hashed_base ch provider pairs) r I J
        (provider.get I) (provider.get J) hEJ hEmptyQ
  · intro Js rest s hc hIe
    rw [runGroups_cons, if_neg (by rw [hc]; exact Bool.false_ne_true),
      if_pos (by rw [hIe]; rfl)]

/-- Witness for C3: the single requested pair (2, 0) has an empty first
image, so the run adds no entry for it. -/
theorem c3_empty_region_witness :
    ((2, 0) ∈ ([(2, 0)] : List (Nat × Nat))) ∧
    (wProv.get 2).descriptors = [] ∧
    pmLookup (2, 0) (impl.Match wHasher0 wProv [(2, 0)] 1 [] noCancel).out =
      pmLookup (2, 0) [] :=
  ⟨by decide, rfl,
    (c3_empty_region wHasher0 wProv [(2, 0)] 1 [] noCancel (fun _ _ _ => rfl) 2 0
      (by decide) (Or.inl rfl)).1⟩

/-- C4.  Type-mismatch skip: a pair whose images report different scalar
types is skipped with exactly one unit of progress and no insertion, other
keys are untouched by its step, and the full run adds no entry for it. -/
theorem c4_type_mismatch (ch : CascadeHasher) (provider : Regions_Provider)
    (hb : Nat → HashedDescriptions) (r : ℚ) (oracle : Nat → Bool)
    (I : Nat) (regionsI : RegionSet) (s : MatchState) (J : Nat)
    (hc : oracle s.tick = false)
    (hmis : regionsI.type_id ≠ (provider.get J).type_id) :
    processPair ch provider hb r oracle I regionsI s J =
      { out := s.out, progress := s.progress + 1, tick := s.tick + 1 } ∧
    (∀ k : Nat × Nat, k ≠ (I, J) →
      pmLookup k (processPair ch provider hb r oracle I regionsI s J).out =
        pmLookup k s.out) ∧
    (∀ (pairs : List (Nat × Nat)) (initMap : PMap),
      (provider.get I).type_id ≠ (provider.get J).type_id →
      pmLookup (I, J) (impl.Match ch provider pairs r initMap oracle).out =
        pmLookup (I, J) initMap) := by
  refine ⟨?_, ?_, ?_⟩
  · unfold processPair
    simp [hc, hmis]
  · intro k hk
    exact processPair_lookup_ne ch provider hb r oracle I regionsI s J hk
  · intro pairs initMap hmis2
    by_contra hne2
    obtain ⟨g, hg, J2, hJ2, hk, hnonempty, htype, hpm, hval⟩ :=
      runGroups_added ch provider (hashed_base ch provider pairs) r oracle (map_Pairs pairs)
        { out := initMap, progress := 0, tick := 0 } hne2
    have hg1 : g.1 = I := (congrArg Prod.fst hk).symm
    have hJ2e : J2 = J := (congrArg Prod.snd hk).symm
    rw [hg1, hJ2e] at htype
    exact hmis2 htype

/-- Witness for C4: images 0 (byte-typed) and 1 (float-typed) of the
mismatched provider; the step only counts progress. -/
theorem c4_type_mismatch_witness :
    noCancel (0 : Nat) = false ∧
    wRegTwo.type_id ≠ (wProvMis.get 1).type_id ∧
    processPair wHasher0 wProvMis wHB 1 noCancel 0 wRegTwo
        { out := [], progress := 0, tick := 0 } 1 =
      { out := [], progress := 1, tick := 1 } :=
  ⟨rfl, by decide,
    (c4_type_mismatch wHasher0 wProvMis wHB 1 noCancel 0 wRegTwo
      { out := [], progress := 0, tick := 0 } 1 rfl (by decide)).1⟩

/-- C5.  Output-key discipline: keys added by a run are input pairs in their
intrinsic orientation; existing bindings are never overwritten; keys stay
duplicate-free (each inserted at most once); every added binding is a
non-empty list; progress never exceeds one unit per input pair, and reaches
exactly one unit per pair when no cancellation occurs. -/
theorem c5_output_keys (ch : CascadeHasher) (provider : Regions_Provider)
    (pairs : List (Nat × Nat)) (r : ℚ) (initMap : PMap) (oracle : Nat → Bool) :
    (∀ k, pmLookup k (impl.Match ch provider pairs r initMap oracle).out ≠
        pmLookup k initMap → k ∈ pairs) ∧
    (∀ k v, pmLookup k initMap = some v →
      pmLookup k (impl.Match ch provider pairs r initMap oracle).out = some v) ∧
    ((initMap.map Prod.fst).Nodup →
      ((impl.Match ch provider pairs r initMap oracle).out.map Prod.fst).Nodup) ∧
    (∀ k, pmLookup k (impl.Match ch provider pairs r initMap oracle).out ≠
        pmLookup k initMap →
      ∃ v, pmLookup k (impl.Match ch provider pairs r initMap oracle).out = some v ∧
        v ≠ []) ∧
    (impl.Match ch provider pairs r initMap oracle).progress ≤ pairs.length ∧
    ((∀ t, oracle t = false) →
      (impl.Match ch provider pairs r initMap oracle).progress = pairs.length) := by
  refine ⟨?_, ?_, ?_, ?_, ?_, ?_⟩
  · intro k hk
    obtain ⟨g, hg, J2, hJ2, hkeq, _, _, _, _⟩ :=
      runGroups_added ch provider (hashed_base ch provider pairs) r oracle (map_Pairs pairs)
        { out := initMap, progress := 0, tick := 0 } hk
    obtain ⟨hgk, hgs⟩ := mem_map_Pairs.mp hg
    rw [hgs] at hJ2
    rw [hkeq]
    exact mem_secondsOf.mp hJ2
  · intro k v hv
    exact runGroups_preserves_some ch provider (hashed_base ch provider pairs) r oracle
      (map_Pairs pairs) _ hv
  · intro hnd
    exact runGroups_keys_nodup ch provider (hashed_base ch provider pairs) r oracle
      (map_Pairs pairs) _ hnd
  · intro k hk
    obtain ⟨g, hg, J2, hJ2, hkeq, _, _, hpm, hval⟩ :=
      runGroups_added ch provider (hashed_base ch provider pairs) r oracle (map_Pairs pairs)
        { out := initMap, progress := 0, tick := 0 } hk
    exact ⟨_, hval, hpm⟩
  · have h := runGroups_progress_le ch provider (hashed_base ch provider pairs) r oracle
      (map_Pairs pairs) { out := initMap, progress := 0, tick := 0 }
    rw [map_Pairs_total_length] at h
    simpa using h
  · intro hor
    have h := runGroups_progress_noCancel ch provider (hashed_base ch provider pairs) r oracle
      hor (map_Pairs pairs) { out := initMap, progress := 0, tick := 0 }
    rw [map_Pairs_total_length] at h
    simpa using h

/-- Witness for C5: one pair, no cancellation — exactly one unit of
progress. -/
theorem c5_output_keys_witness :
    (impl.Match wHasherC wProv [(0, 1)] 1 [] noCancel).progress =
      ([(0, 1)] : List (Nat × Nat)).length :=
  (c5_output_keys wHasherC wProv [(0, 1)] 1 [] noCancel).2.2.2.2.2 fun _ => rfl

/-- C6.  Unsupported configurations: a missing provider, a binary-encoded
provider, and an unknown scalar type each produce no matching work and an
unchanged (empty) output, the last one with the error reported; none is
fatal. -/
theorem c6_unsupported_config (ch : CascadeHasher) (pairs : List (Nat × Nat)) (r : ℚ)
    (initMap : PMap) (oracle : Nat → Bool) :
    Cascade_Hashing_Matcher_Regions.Match ch none pairs r initMap oracle =
      { out := initMap, progress := 0, errorReported := false } ∧
    (∀ provider : Regions_Provider, provider.isBinary = true →
      Cascade_Hashing_Matcher_Regions.Match ch (some provider) pairs r initMap oracle =
        { out := initMap, progress := 0, errorReported := false }) ∧
    (∀ provider : Regions_Provider, provider.isBinary = false →
      provider.type_id ≠ "unsigned char" → provider.type_id ≠ "float" →
      Cascade_Hashing_Matcher_Regions.Match ch (some provider) pairs r initMap oracle =
        { out := initMap, progress := 0, errorReported := true }) := by
  refine ⟨rfl, ?_, ?_⟩
  · intro provider hbin
    unfold Cascade_Hashing_Matcher_Regions.Match
    simp [hbin]
  · intro provider hbin h1 h2
    unfold Cascade_Hashing_Matcher_Regions.Match
    simp [hbin, h1, h2]

/-- Witness for C6: the binary provider and the unknown-type provider at
concrete inputs. -/
theorem c6_unsupported_config_witness :
    wProvBin.isBinary = true ∧
    wProvUnknown.isBinary = false ∧
    Cascade_Hashing_Matcher_Regions.Match wHasher0 (some wProvBin) [(0, 1)] 1 [] noCancel =
      { out := [], progress := 0, errorReported := false } ∧
    Cascade_Hashing_Matcher_Regions.Match wHasher0 (some wProvUnknown) [(0, 1)] 1 [] noCancel =
      { out := [], progress := 0, errorReported := true } :=
  ⟨rfl, rfl,
    (c6_unsupported_config wHasher0 [(0, 1)] 1 [] noCancel).2.1 wProvBin rfl,
    (c6_unsupported_config wHasher0 [(0, 1)] 1 [] noCancel).2.2 wProvUnknown rfl
      (by decide) (by decide)⟩

/-- C8.  Cancellation: with a sticky (monotone) cancellation flag, once the
flag is observed set, the outer loop breaks at once and the remaining inner
loop adds nothing (no pair beginning after the observation produces an
entry); every binding present before the observation is preserved unchanged
in the returned collection; and any binding a run does add is a complete
per-pair match list, never a partial entry. -/
theorem c8_cancellation (ch : CascadeHasher) (provider : Regions_Provider)
    (hb : Nat → HashedDescriptions) (r : ℚ) (oracle : Nat → Bool)
    (hmono : ∀ t, oracle t = true → oracle (t + 1) = true) :
    (∀ (gs : List (Nat × List Nat)) (s : MatchState), oracle s.tick = true →
      runGroups ch provider hb r oracle gs s = s) ∧
    (∀ (I : Nat) (regionsI : RegionSet) (Js : List Nat) (s : MatchState),
      oracle s.tick = true →
      Js.foldl (processPair ch provider hb r oracle I regionsI) s =
        { s with tick := s.tick + Js.length }) ∧
    (∀ (gs : List (Nat × List Nat)) (s : MatchState) (k : Nat × Nat) (v : List (Nat × Nat)),
      pmLookup k s.out = some v →
      pmLookup k (runGroups ch provider hb r oracle gs s).out = some v) ∧
    (∀ (gs : List (Nat × List Nat)) (s : MatchState) (k : Nat × Nat),
      pmLookup k (runGroups ch provider hb r oracle gs s).out ≠ pmLookup k s.out →
      ∃ g ∈ gs, ∃ J ∈ g.2, k = (g.1, J) ∧
        pmLookup k (runGroups ch provider hb r oracle gs s).out =
          some (pairMatches ch hb r g.1 J (provider.get g.1) (provider.get J))) := by
  refine ⟨?_, ?_, ?_, ?_⟩
  · intro gs s hc
    exact runGroups_canceled ch provider hb r oracle gs s hc
  · intro I regionsI Js s hc
    exact fold_canceled ch provider hb r oracle I regionsI hmono Js s hc
  · intro gs s k v hv
    exact runGroups_preserves_some ch provider hb r oracle gs s hv
  · intro gs s k hk
    obtain ⟨g, hg, J2, hJ2, hkeq, _, _, _, hval⟩ :=
      runGroups_added ch provider hb r oracle gs s hk
    exact ⟨g, hg, J2, hJ2, hkeq, hval⟩

/-- Witness for C8: flag set from the start — the loop returns its state,
with the pre-existing binding, untouched. -/
theorem c8_cancellation_witness :
    ((fun _ : Nat => true) 0 = true) ∧
    runGroups wHasher0 wProv wHB 1 (fun _ => true) [(0, [1])]
        { out := [((5, 5), [(1, 2)])], progress := 3, tick := 0 } =
      { out := [((5, 5), [(1, 2)])], progress := 3, tick := 0 } :=
  ⟨rfl,
    (c8_cancellation wHasher0 wProv wHB 1 (fun _ => true) (fun _ h => h)).1 [(0, [1])]
      { out := [((5, 5), [(1, 2)])], progress := 3, tick := 0 } rfl⟩

/-- C9.  Global normalizer: the Zero-Mean Descriptor is the engine's
reduction of the matrix whose rows are, one per used image in the stable
sorted (duplicate-free) order of the used-image list, the engine's reduction
of that image's descriptors when it has any and the all-zero row otherwise;
and every hash-index build embeds exactly this shared descriptor. -/
theorem c9_zero_mean (ch : CascadeHasher) (provider : Regions_Provider)
    (pairs : List (Nat × Nat)) :
    zero_mean_descriptor ch provider pairs =
      ch.getZeroMeanDescriptor ((usedIndexList pairs).map fun I =>
        if 0 < (provider.get I).descriptors.length
        then ch.getZeroMeanDescriptor (provider.get I).descriptors
        else List.replicate (zeroMeanWidth provider (usedIndexList pairs)) 0) ∧
    (usedIndexList pairs).Sorted (· ≤ ·) ∧
    (usedIndexList pairs).Nodup ∧
    (∀ I, I ∈ usedIndexList pairs ↔ ∃ p ∈ pairs, p.1 = I ∨ p.2 = I) ∧
    (∀ I, (hashed_base ch provider pairs I).zeroMean =
      zero_mean_descriptor ch provider pairs) := by
  refine ⟨?_, usedIndexList_sorted pairs, usedIndexList_nodup pairs, ?_, ?_⟩
  · unfold zero_mean_descriptor
    rw [matForZeroMean_eq]
  · intro I
    exact mem_usedIndexList
  · intro I
    rfl

/-- Witness for C9 at a concrete pair list: the shared descriptor is embedded
in image 0's hash index. -/
theorem c9_zero_mean_witness :
    (hashed_base wHasher0 wProv [(0, 1)] 0).zeroMean =
      zero_mean_descriptor wHasher0 wProv [(0, 1)] :=
  (c9_zero_mean wHasher0 wProv [(0, 1)]).2.2.2.2 0

/-- Observational equality of collections is reflexive. -/
theorem outEquiv_refl (m : PMap) : outEquiv m m := fun _ => rfl

/-- Observational equality of collections is transitive. -/
theorem outEquiv_trans {m1 m2 m3 : PMap} (h1 : outEquiv m1 m2) (h2 : outEquiv m2 m3) :
    outEquiv m1 m3 := fun k => (h1 k).trans (h2 k)

/-- Insertion respects observational equality. -/
theorem pmInsert_congr {m1 m2 : PMap} (k : Nat × Nat) (v : List (Nat × Nat))
    (h : outEquiv m1 m2) : outEquiv (pmInsert k v m1) (pmInsert k v m2) := by
  intro k2
  rw [pmLookup_pmInsert, pmLookup_pmInsert, h k2]

/-- Insertions at distinct keys commute observationally. -/
theorem pmInsert_comm {k1 k2 : Nat × Nat} (hk : k1 ≠ k2)
    (v1 v2 : List (Nat × Nat)) (m : PMap) :
    outEquiv (pmInsert k1 v1 (pmInsert k2 v2 m)) (pmInsert k2 v2 (pmInsert k1 v1 m)) := by
  intro k
  by_cases h1 : k = k1
  · subst h1
    simp [pmLookup_pmInsert, hk]
  · by_cases h2 : k = k2
    · subst h2
      simp [pmLookup_pmInsert, Ne.symm hk, h1]
    · simp [pmLookup_pmInsert, h1, h2]

section

variable (ch : CascadeHasher) (provider : Regions_Provider) (hb : Nat → HashedDescriptions)
variable (r : ℚ) (I : Nat) (regionsI : RegionSet)

/-- The per-pair output action respects observational equality. -/
theorem pairAct_congr {m1 m2 : PMap} (J : Nat) (h : outEquiv m1 m2) :
    outEquiv (pairAct ch provider hb r I regionsI m1 J)
      (pairAct ch provider hb r I regionsI m2 J) := by
  unfold pairAct
  by_cases hcond : regionsI.type_id = (provider.get J).type_id ∧
      pairMatches ch hb r I J regionsI (provider.get J) ≠ []
  · rw [if_pos hcond, if_pos hcond]
    exact pmInsert_congr _ _ h
  · rw [if_neg hcond, if_neg hcond]
    exact h

/-- Per-pair output actions for two members of one group commute
observationally: distinct members write distinct keys. -/
theorem pairAct_comm (m : PMap) (x y : Nat) :
    outEquiv (pairAct ch provider hb r I regionsI (pairAct ch provider hb r I regionsI m x) y)
      (pairAct ch provider hb r I regionsI (pairAct ch provider hb r I regionsI m y) x) := by
  by_cases hxy : x = y
  · subst hxy; exact outEquiv_refl _
  · unfold pairAct
    split_ifs <;>
      first
        | exact outEquiv_refl _
        | exact pmInsert_comm (fun h => hxy ((congrArg Prod.snd h).symm)) _ _ m

/-- Folding the per-pair output actions respects observational equality. -/
theorem pairAct_fold_congr :
    ∀ (Js : List Nat) {m1 m2 : PMap}, outEquiv m1 m2 →
      outEquiv (Js.foldl (pairAct ch provider hb r I regionsI) m1)
        (Js.foldl (pairAct ch provider hb r I regionsI) m2) := by
  intro Js
  induction Js with
  | nil => intro m1 m2 h; exact h
  | cons J tl ih =>
    intro m1 m2 h
    exact ih (pairAct_congr ch provider hb r I regionsI J h)

/-- Folding the per-pair output actions over any permutation of a group's
members produces observationally the same collection. -/
theorem pairAct_fold_perm {Js1 Js2 : List Nat} (hperm : Js1.Perm Js2) :
    ∀ (m : PMap),
      outEquiv (Js1.foldl (pairAct ch provider hb r I regionsI) m)
        (Js2.foldl (pairAct ch provider hb r I regionsI) m) := by
  induction hperm with
  | nil => intro m; exact outEquiv_refl _
  | cons x h ih =>
    intro m
    exact ih _
  | swap x y l =>
    intro m
    simp only [List.foldl_cons]
    exact pairAct_fold_congr ch provider hb r I regionsI l
      (pairAct_comm ch provider hb r I regionsI m y x)
  | trans h1 h2 ih1 ih2 =>
    intro m
    exact outEquiv_trans (ih1 m) (ih2 m)

end

/-- Unfolding equation: the scheduled outer loop on an empty group list. -/
theorem runGroupsSched_nil (ch : CascadeHasher) (provider : Regions_Provider)
    (hb : Nat → HashedDescriptions) (r : ℚ) (oracle : Nat → Bool)
    (sched : Nat → List Nat → List Nat) (s : MatchState) :
    runGroupsSched ch provider hb r oracle sched [] s = s := rfl

/-- Unfolding equation: one step of the scheduled outer loop. -/
theorem runGroupsSched_cons (ch : CascadeHasher) (provider : Regions_Provider)
    (hb : Nat → HashedDescriptions) (r : ℚ) (oracle : Nat → Bool)
    (sched : Nat → List Nat → List Nat) (I : Nat) (Js : List Nat)
    (rest : List (Nat × List Nat)) (s : MatchState) :
    runGroupsSched ch provider hb r oracle sched ((I, Js) :: rest) s =
      if oracle s.tick then s
      else if (provider.get I).descriptors.length = 0 then
        runGroupsSched ch provider hb r oracle sched rest
          { out := s.out, progress := s.progress + Js.length, tick := s.tick + 1 }
      else
        runGroupsSched ch provider hb r oracle sched rest
          ((sched I Js).foldl (processPair ch provider hb r oracle I (provider.get I))
            { s with tick := s.tick + 1 }) := rfl

/-- With no cancellation, running the outer loop under any per-group
completion schedule that permutes the members yields observationally the
same collection, the same progress count and the same number of
consultations as the source order. -/
theorem runGroupsSched_perm (ch : CascadeHasher) (provider : Regions_Provider)
    (hb : Nat → HashedDescriptions) (r : ℚ) (oracle : Nat → Bool)
    (hor : ∀ t, oracle t = false) (sched : Nat → List Nat → List Nat)
    (hperm : ∀ I js, (sched I js).Perm js) :
    ∀ (gs : List (Nat × List Nat)) (s1 s2 : MatchState),
      outEquiv s1.out s2.out → s1.progress = s2.progress → s1.tick = s2.tick →
      outEquiv (runGroupsSched ch provider hb r oracle sched gs s1).out
          (runGroups ch provider hb r oracle gs s2).out ∧
        (runGroupsSched ch provider hb r oracle sched gs s1).progress =
          (runGroups ch provider hb r oracle gs s2).progress ∧
        (runGroupsSched ch provider hb r oracle sched gs s1).tick =
          (runGroups ch provider hb r oracle gs s2).tick := by
  intro gs
  induction gs with
  | nil => intro s1 s2 ho hp htk; exact ⟨ho, hp, htk⟩
  | cons g rest ih =>
    intro s1 s2 ho hp htk
    obtain ⟨I, Js⟩ := g
    have hno1 : ¬ (oracle s1.tick = true) := by rw [hor s1.tick]; exact Bool.false_ne_true
    have hno2 : ¬ (oracle s2.tick = true) := by rw [hor s2.tick]; exact Bool.false_ne_true
    rw [runGroupsSched_cons, runGroups_cons, if_neg hno1, if_neg hno2]
    by_cases he : (provider.get I).descriptors.length = 0
    · rw [if_pos he, if_pos he]
      exact ih _ _ ho (by simp [hp]) (by simp [htk])
    · rw [if_neg he, if_neg he]
      rw [fold_noCancel_decomp ch provider hb r oracle I (provider.get I) hor,
        fold_noCancel_decomp ch provider hb r oracle I (provider.get I) hor]
      refine ih _ _ ?_ ?_ ?_
      · refine outEquiv_trans
          (pairAct_fold_perm ch provider hb r I (provider.get I) (hperm I Js) _) ?_
        exact pairAct_fold_congr ch provider hb r I (provider.get I) Js ho
      · simp [(hperm I Js).length_eq, hp]
      · simp [(hperm I Js).length_eq, htk]

/-- C7.  Determinism of content: with no cancellation, the pipeline run under
any inner-loop completion schedule (any permutation of each group's members,
standing for any thread interleaving of the parallel-for) yields a collection
with exactly the same bindings and the same progress count as the source
order; the pipeline is a pure function, so two runs on the same inputs are
identical. -/
theorem c7_determinism (ch : CascadeHasher) (provider : Regions_Provider)
    (pairs : List (Nat × Nat)) (r : ℚ) (initMap : PMap)
    (sched : Nat → List Nat → List Nat) (hperm : ∀ I js, (sched I js).Perm js) :
    (∀ k, pmLookup k (impl.MatchSched ch provider pairs r initMap noCancel sched).out =
      pmLookup k (impl.Match ch provider pairs r initMap noCancel).out) ∧
    (impl.MatchSched ch provider pairs r initMap noCancel sched).progress =
      (impl.Match ch provider pairs r initMap noCancel).progress := by
  have h := runGroupsSched_perm ch provider (hashed_base ch provider pairs) r noCancel
    (fun _ => rfl) sched hperm (map_Pairs pairs)
    { out := initMap, progress := 0, tick := 0 } { out := initMap, progress := 0, tick := 0 }
    (outEquiv_refl _) rfl rfl
  exact ⟨h.1, h.2.1⟩

/-- Witness for C7: reversing each group's completion order leaves the
binding of pair (0, 1) unchanged. -/
theorem c7_determinism_witness :
    ((fun (_ : Nat) (js : List Nat) => js.reverse) 0 [1, 2]).Perm [1, 2] ∧
    pmLookup (0, 1)
        (impl.MatchSched wHasherC wProv [(0, 1), (0, 2)] 1 [] noCancel
          fun (_ : Nat) (js : List Nat) => js.reverse).out =
      pmLookup (0, 1) (impl.Match wHasherC wProv [(0, 1), (0, 2)] 1 [] noCancel).out :=
  ⟨List.reverse_perm [1, 2],
    (c7_determinism wHasherC wProv [(0, 1), (0, 2)] 1 []
      (fun (_ : Nat) (js : List Nat) => js.reverse)
      fun _ js => List.reverse_perm js).1 (0, 1)⟩
